import Mathlib

/-!
Verification of the fluent-locale / fluent-langneg Rust crate.

This file contains a shallow embedding of the crate's locale parser and
serializer (`src/locale/parser.rs`, `src/locale/mod.rs`), its compact
tiny-string representation (`src/locale/tinystr.rs`), the likely-subtags
expanders (`src/locale/likely_subtags.rs`, `src/negotiate/likely_subtags.rs`)
and the negotiation engine (`src/negotiate/mod.rs`), together with theorems
about the behavioural properties the documentation states.

Strings are modelled as lists of byte values (`Str := List Nat`); the code
itself enforces that all inputs of interest are ASCII, so bytes and
characters coincide.  Machine integers (`u32`/`u64` words of the tiny-string
type and of the table keys) are modelled as `Nat` with explicit reductions
modulo `2 ^ 32` / `2 ^ 64` wherever the Rust arithmetic could wrap.
-/

namespace FL

/-- Byte strings: each element is one byte of an ASCII string. -/
abbrev Str : Type := List Nat

/-- Convert a Lean string literal to its byte representation.  Only used to
write ASCII test data readably. -/
def strBytes (s : String) : Str := s.data.map Char.toNat

/-- `u8::is_ascii_alphabetic`. -/
def isAsciiAlpha (b : Nat) : Bool := (65 ≤ b && b ≤ 90) || (97 ≤ b && b ≤ 122)

/-- `u8::is_ascii_digit`. -/
def isAsciiDigit (b : Nat) : Bool := 48 ≤ b && b ≤ 57

/-- `u8::to_ascii_lowercase`. -/
def toLowerByte (b : Nat) : Nat := if 65 ≤ b && b ≤ 90 then b + 32 else b

/-- `u8::to_ascii_uppercase`. -/
def toUpperByte (b : Nat) : Nat := if 97 ≤ b && b ≤ 122 then b - 32 else b

/-- `str::to_ascii_lowercase`. -/
def strToLower (s : Str) : Str := s.map toLowerByte

/-- `str::to_ascii_uppercase`. -/
def strToUpper (s : Str) : Str := s.map toUpperByte

/-- `parse_script_subtag`'s canonical casing: lowercase everything, then
uppercase the first byte (`s[0..1].make_ascii_uppercase()`). -/
def titleCaseStr (s : Str) : Str :=
  match s with
  | [] => []
  | b :: rest => toUpperByte (toLowerByte b) :: rest.map toLowerByte

/-- The tag separators of `parse_language_tag`: ASCII `-` and `_`. -/
def isTagSep (b : Nat) : Bool := b == 45 || b == 95

/-- `str::split(|c| c == '-' || c == '_')`. -/
def splitTags : Str → List Str
  | [] => [[]]
  | b :: rest =>
    if isTagSep b then [] :: splitTags rest
    else
      match splitTags rest with
      | [] => [[b]]
      | h :: tail => (b :: h) :: tail

/-- Lexicographic byte order on `Str`, the order `BTreeMap<String, _>` uses. -/
def strLt : Str → Str → Bool
  | [], [] => false
  | [], _ :: _ => true
  | _ :: _, [] => false
  | a :: as, b :: bs => if a < b then true else if b < a then false else strLt as bs

/-- Sorted-association-list insert, modelling `BTreeMap::insert`. -/
def insertSorted {α : Type} (k : Str) (v : α) : List (Str × α) → List (Str × α)
  | [] => [(k, v)]
  | (k2, v2) :: rest =>
    if strLt k k2 then (k, v) :: (k2, v2) :: rest
    else if k = k2 then (k, v) :: rest
    else (k2, v2) :: insertSorted k v rest

/-- `BTreeMap::get` on the association-list model. -/
def lookupKey {α : Type} (k : Str) : List (Str × α) → Option α
  | [] => none
  | (k2, v) :: rest => if k = k2 then some v else lookupKey k rest

/-- `BTreeMap::get_mut` followed by an in-place update. -/
def updateKey {α : Type} (k : Str) (f : α → α) : List (Str × α) → List (Str × α)
  | [] => []
  | (k2, v) :: rest => if k = k2 then (k2, f v) :: rest else (k2, v) :: updateKey k f rest

/-- `Locale` (src/locale/mod.rs).  The two `BTreeMap` levels of `extensions`
are modelled as association lists kept sorted by key, so that structural
equality of the model coincides with `BTreeMap` equality. -/
structure Locale where
  language : Option Str
  extlangs : Option (List Str)
  script : Option Str
  region : Option Str
  variants : Option (List Str)
  extensions : Option (List (Str × List (Str × Str)))
  privateuse : List Str
deriving DecidableEq, Repr

/-- The all-absent locale, `Locale::default()` / parse of the empty string. -/
def Locale.empty : Locale := ⟨none, none, none, none, none, none, []⟩

instance : Inhabited Locale := ⟨Locale.empty⟩

/-- `parser::Error` (src/locale/parser.rs).  `notImplemented` models the
`unimplemented!()` panics of `options::option_name_for_key` /
`option_key_for_name`, which abort rather than return an error. -/
inductive PError where
  | duplicateExtension
  | emptyExtension
  | emptyPrivateUse
  | forbiddenChar
  | invalidSubtag
  | invalidLanguage
  | subtagTooLong
  | tooManyExtlangs
  | notImplemented
deriving DecidableEq, Repr

/-- `parser::parse_language_subtag`. -/
def parseLanguageSubtag (t : Str) : Except PError Str :=
  if t.length < 2 || t.length > 3 || t.any (fun c => !isAsciiAlpha c) then
    .error .invalidLanguage
  else .ok (strToLower t)

/-- `parser::parse_script_subtag`. -/
def parseScriptSubtag (t : Str) : Except PError Str :=
  if t.length ≠ 4 || t.any (fun c => !isAsciiAlpha c) then .error .invalidSubtag
  else .ok (titleCaseStr t)

/-- `parser::parse_region_subtag`. -/
def parseRegionSubtag (t : Str) : Except PError Str :=
  if (t.length = 2 && t.all isAsciiAlpha) || (t.length = 3 && t.all isAsciiDigit) then
    .ok (strToUpper t)
  else .error .invalidSubtag

/-- `Locale::set_language`. -/
def Locale.setLanguage (l : Locale) (value : Str) : Except PError Locale :=
  if value ≠ [] && value ≠ strBytes "und" then do
    let lang ← parseLanguageSubtag value
    .ok { l with language := some lang }
  else .ok { l with language := none }

/-- `Locale::set_script`. -/
def Locale.setScript (l : Locale) (value : Str) : Except PError Locale :=
  if value ≠ [] then do
    let s ← parseScriptSubtag value
    .ok { l with script := some s }
  else .ok { l with script := none }

/-- `Locale::set_region`. -/
def Locale.setRegion (l : Locale) (value : Str) : Except PError Locale :=
  if value ≠ [] then do
    let r ← parseRegionSubtag value
    .ok { l with region := some r }
  else .ok { l with region := none }

/-- `Locale::get_language` — the empty string when the language is absent. -/
def Locale.getLanguage (l : Locale) : Str := l.language.getD []

/-- `Locale::get_script`. -/
def Locale.getScript (l : Locale) : Str := l.script.getD []

/-- `Locale::get_region`. -/
def Locale.getRegion (l : Locale) : Str := l.region.getD []

/-- `Locale::get_variants` (collected to a plain list). -/
def Locale.getVariants (l : Locale) : List Str := l.variants.getD []

/-- `Locale::has_privateuse`. -/
def Locale.hasPrivateuse (l : Locale) : Bool := !l.privateuse.isEmpty

/-- `parser::ext_name_for_key`: "u" ↦ "unicode", anything else kept. -/
def extNameForKey (key : Str) : Str :=
  if key = strBytes "u" then strBytes "unicode" else key

/-- `parser::ext_key_for_name`: "unicode" ↦ "u", anything else kept. -/
def extKeyForName (key : Str) : Str :=
  if key = strBytes "unicode" then strBytes "u" else key

/-- `options::option_name_for_key`; `none` models the `unimplemented!()`
panic on any key other than "hc" / "ca". -/
def optionNameForKey (key : Str) : Option Str :=
  if key = strBytes "hc" then some (strBytes "hour-cycle")
  else if key = strBytes "ca" then some (strBytes "calendar")
  else none

/-- `options::option_key_for_name`; `none` models the `unimplemented!()`
panic on any name other than "hour-cycle" / "calendar". -/
def optionKeyForName (key : Str) : Option Str :=
  if key = strBytes "hour-cycle" then some (strBytes "hc")
  else if key = strBytes "calendar" then some (strBytes "ca")
  else none

/-- The loop state of `parse_language_tag`: the locale built so far, the
grammar position cursor, the currently open extension singleton, and a
pending extension key awaiting its value. -/
structure ParseState where
  loc : Locale
  position : Nat
  currentExt : Option Str
  extKey : Option Str
deriving DecidableEq, Repr

/-- First byte is ASCII alphabetic (`subtag[0..1].chars().all(is_ascii_alphabetic)`;
only evaluated when the length guard already holds, so the head exists). -/
def headIsAlpha (s : Str) : Bool :=
  match s with
  | [] => false
  | b :: _ => isAsciiAlpha b

/-- First byte is an ASCII digit. -/
def headIsDigit (s : Str) : Bool :=
  match s with
  | [] => false
  | b :: _ => isAsciiDigit b

/-- One iteration of the subtag loop of `parse_language_tag`. -/
def parseSubtagStep (st : ParseState) (subtag : Str) : Except PError ParseState :=
  let slen := subtag.length
  if slen > 8 then .error .subtagTooLong
  else
    match st.currentExt with
    | some ext =>
      if ext = strBytes "x" then
        .ok { st with loc := { st.loc with privateuse := st.loc.privateuse ++ [subtag] } }
      else
        match st.extKey with
        | some key =>
          match st.loc.extensions with
          | some exts =>
            .ok { st with
                  loc := { st.loc with
                           extensions := some (updateKey ext (insertSorted key subtag) exts) }
                  extKey := none }
          | none => .ok st
        | none =>
          match optionNameForKey subtag with
          | some name => .ok { st with extKey := some name }
          | none => .error .notImplemented
    | none =>
      if slen = 1 then
        if subtag.any (fun c => !isAsciiAlpha c) then .error .invalidSubtag
        else
          let extName := extNameForKey subtag
          match st.loc.extensions with
          | some exts =>
            if (lookupKey extName exts).isSome then .error .duplicateExtension
            else
              .ok { st with
                    loc := { st.loc with extensions := some (insertSorted extName [] exts) }
                    currentExt := some extName }
          | none =>
            .ok { st with
                  loc := { st.loc with extensions := some [(extName, [])] }
                  currentExt := some extName }
      else if st.position = 0 then
        if slen < 2 || slen > 3 then .error .invalidLanguage
        else
          match st.loc.setLanguage subtag with
          | .error _ => .error .invalidLanguage
          | .ok loc => .ok { st with loc, position := if slen < 4 then 1 else 2 }
      else if st.position = 1 && slen = 3 && subtag.all isAsciiAlpha then
        .ok { st with loc := { st.loc with extlangs := some (st.loc.extlangs.getD [] ++ [subtag]) } }
      else if st.position ≤ 2 && slen = 4 && subtag.all isAsciiAlpha then do
        let loc ← st.loc.setScript subtag
        .ok { st with loc, position := 3 }
      else if st.position ≤ 3 &&
              ((slen = 2 && subtag.all isAsciiAlpha) || (slen = 3 && subtag.all isAsciiDigit)) then do
        let loc ← st.loc.setRegion subtag
        .ok { st with loc, position := 4 }
      else if st.position ≤ 4 &&
              ((slen ≥ 5 && headIsAlpha subtag) || (slen ≥ 4 && headIsDigit subtag)) then
        .ok { st with
              loc := { st.loc with variants := some (st.loc.variants.getD [] ++ [subtag]) }
              position := 4 }
      else .error .invalidSubtag

/-- `parser::parse_language_tag`. -/
def parseLanguageTag (t : Str) : Except PError Locale :=
  if t.any (fun b => 128 ≤ b) then .error .invalidLanguage
  else if t = [] then .ok Locale.empty
  else do
    let st ← (splitTags t).foldlM parseSubtagStep ⟨Locale.empty, 0, none, none⟩
    .ok st.loc

/-- The key/value pairs of one extension as rendered by `fmt::Display for
Locale`; `none` models the `unimplemented!()` panic of
`option_key_for_name` on an unknown key name. -/
def renderKvs : List (Str × Str) → Option (List Str)
  | [] => some []
  | (k, v) :: rest => do
    let ks ← optionKeyForName k
    let tail ← renderKvs rest
    pure (ks :: v :: tail)

/-- The extension subtags as rendered by `fmt::Display for Locale`. -/
def renderExts : List (Str × List (Str × Str)) → Option (List Str)
  | [] => some []
  | (name, ext) :: rest => do
    let kvs ← renderKvs ext
    let tail ← renderExts rest
    pure (extKeyForName name :: (kvs ++ tail))

/-- `Vec::join("-")` on the collected subtags. -/
def joinDash : List Str → Str
  | [] => []
  | [p] => p
  | p :: ps => p ++ 45 :: joinDash ps

/-- `impl fmt::Display for Locale` / `Locale::to_string`.  Pushes
`get_language()` (the empty string when absent), then script, region,
variants and extensions, and joins everything with `-`.  Private-use
subtags and extlangs are not rendered. -/
def localeToString (l : Locale) : Option Str := do
  let exts ←
    match l.extensions with
    | some e => renderExts e
    | none => pure []
  let subtags :=
    [l.getLanguage]
      ++ (match l.script with | some s => [s] | none => [])
      ++ (match l.region with | some r => [r] | none => [])
      ++ (match l.variants with | some vs => vs | none => [])
      ++ exts
  pure (joinDash subtags)

/-- `Locale::matches` (src/locale/mod.rs). -/
def Locale.matches (self other : Locale) (availableRange requestedRange : Bool) : Bool :=
  if !self.privateuse.isEmpty || other.hasPrivateuse then false
  else if (!availableRange || !self.language.isNone) &&
          (!requestedRange || !other.getLanguage.isEmpty) &&
          self.getLanguage != other.getLanguage then false
  else if (!availableRange || !self.script.isNone) &&
          (!requestedRange || !other.getScript.isEmpty) &&
          self.getScript != other.getScript then false
  else if (!availableRange || !self.region.isNone) &&
          (!requestedRange || !other.getRegion.isEmpty) &&
          self.getRegion != other.getRegion then false
  else if (!availableRange || !self.variants.isNone) &&
          (!requestedRange || !other.getVariants.isEmpty) &&
          self.getVariants != other.getVariants then false
  else true

/-- `str_to_le` (src/locale/likely_subtags.rs): the little-endian numeric
key of a subtag of at most 4 bytes, `!0u32` beyond that. -/
def strToLe (s : Str) : Nat :=
  if s.length > 4 then 0xffffffff
  else s.foldr (fun b acc => b + 256 * acc) 0

/-- One step of `slice::binary_search_by` over numeric keys, with explicit
fuel (the range shrinks strictly, so `length + 1` steps always suffice). -/
def bsearchNumGo (data : List (Nat × Str)) (key : Nat) :
    Nat → Nat → Nat → Option Str
  | 0, _, _ => none
  | fuel + 1, lo, hi =>
    if lo < hi then
      let mid := (lo + hi) / 2
      match data.get? mid with
      | none => none
      | some (k, v) =>
        if k < key then bsearchNumGo data key fuel (mid + 1) hi
        else if key < k then bsearchNumGo data key fuel lo mid
        else some v
    else none

/-- `lookup_binary` (src/locale/likely_subtags.rs). -/
def lookupBinary (key : Nat) (data : List (Nat × Str)) : Option Str :=
  bsearchNumGo data key (data.length + 1) 0 data.length

/-- `apply_lookup` (src/locale/likely_subtags.rs): fill every absent field
of the locale from a `lang-Scrp-REG` table value.  The `position(..).unwrap()`
calls cannot fail on well-formed table values; `getD` stands in for them.
The `let _ = set_*` result is discarded, so a failing setter leaves the
field unchanged, as in the source. -/
def applyLookup (locale : Locale) (lookup : Str) : Locale :=
  let endLang := (List.findIdx? (fun b => b == 45) lookup).getD lookup.length
  let afterLang := lookup.drop (endLang + 1)
  let scriptLen := (List.findIdx? (fun b => b == 45) afterLang).getD afterLang.length
  let l1 :=
    if locale.getLanguage.isEmpty then
      match locale.setLanguage (lookup.take endLang) with
      | .ok l => l
      | .error _ => locale
    else locale
  let l2 :=
    if l1.getScript.isEmpty then
      match l1.setScript (afterLang.take scriptLen) with
      | .ok l => l
      | .error _ => l1
    else l1
  if l2.getRegion.isEmpty then
    match l2.setRegion (afterLang.drop (scriptLen + 1)) with
    | .ok l => l
    | .error _ => l2
  else l2

/-- The four sorted likely-subtags tables referenced by
`Locale::add_likely_subtags`.  Their contents live in `locale/tables.rs`, a
generated data asset that is not part of the source tree, so the tables are
a parameter of the embedding. -/
structure Tables where
  scriptRegion : List (Nat × Str)
  langRegion : List (Nat × Str)
  langScript : List (Nat × Str)
  langOnly : List (Nat × Str)

/-- `Locale::add_likely_subtags` (src/locale/likely_subtags.rs).  The
sentinel stripping uses `set_script("")` / `set_region("")`, which simply
store `None`. -/
def addLikelySubtags (tb : Tables) (l0 : Locale) : Locale × Bool :=
  let lang := strToLe l0.getLanguage
  let script := strToLe l0.getScript
  let region := strToLe l0.getRegion
  let l1 := if script = 0x7a7a7a5a then { l0 with script := none } else l0
  let l := if region = 0x5a5a then { l1 with region := none } else l1
  let step1 :=
    if lang = 0 then lookupBinary ((region <<< 32) ||| script) tb.scriptRegion else none
  match step1 with
  | some v => (applyLookup l v, true)
  | none =>
    match lookupBinary ((region <<< 32) ||| lang) tb.langRegion with
    | some v => (applyLookup l v, true)
    | none =>
      match lookupBinary ((script <<< 32) ||| lang) tb.langScript with
      | some v => (applyLookup l v, true)
      | none =>
        match lookupBinary lang tb.langOnly with
        | some v => (applyLookup l v, true)
        | none =>
          match lookupBinary (script <<< 32) tb.langScript with
          | some v => (applyLookup l v, true)
          | none => (l, false)

/-- Modelled from the spec: sample contents of the likely-subtags tables of
`locale/tables.rs`, which is an external generated data asset (the CLDR
likely-subtags registry) missing from the source tree.  Only entries
confirmed by the repository's own unit tests are included, each list sorted
ascending by its numeric key as the spec requires. -/
def sampleTables : Tables where
  scriptRegion := [(((strToLe (strBytes "CC")) <<< 32) ||| strToLe (strBytes "Arab"),
                    strBytes "ms-Arab-CC")]
  langRegion := [(((strToLe (strBytes "IQ")) <<< 32) ||| strToLe (strBytes "az"),
                  strBytes "az-Arab-IQ")]
  langScript := [(((strToLe (strBytes "Arab")) <<< 32) ||| strToLe (strBytes "az"),
                  strBytes "az-Arab-IR")]
  langOnly := [(strToLe (strBytes "en"), strBytes "en-Latn-US"),
               (strToLe (strBytes "az"), strBytes "az-Latn-AZ")]

/-- `tinystr::Error`. -/
inductive TinyError where
  | invalidSize
  | invalidNull
  | nonAscii
deriving DecidableEq, Repr

/-- Little-endian packing of a byte string into a machine word
(`copy_nonoverlapping` of the text bytes into a zeroed integer). -/
def packLE : Str → Nat
  | [] => 0
  | b :: rest => b + 256 * packLE rest

/-- `TinyStr8::new`; the returned `Nat` is the packed (nonzero) word.  The
`mask - word` subtraction is `u64` arithmetic, but it is only reached after
the non-ASCII check, where `word ≤ mask` holds, so plain `Nat` subtraction
agrees with it. -/
def tinyStr8New (text : Str) : Except TinyError Nat :=
  let len := text.length
  if len < 1 ∨ len > 8 then .error .invalidSize
  else
    let word := packLE text
    let mask := 0x8080808080808080 >>> (8 * (8 - len))
    if word &&& mask ≠ 0 then .error .nonAscii
    else if (mask - word) &&& mask ≠ 0 then .error .invalidNull
    else .ok word

/-- `make_4byte_str`. -/
def make4ByteStr (text : Str) (mask : Nat) : Except TinyError Nat :=
  let word := packLE text
  if word &&& mask ≠ 0 then .error .nonAscii
  else if (mask - word) &&& mask ≠ 0 then .error .invalidNull
  else .ok word

/-- `TinyStr4::new`. -/
def tinyStr4New (text : Str) : Except TinyError Nat :=
  match text.length with
  | 1 => make4ByteStr text 0x80
  | 2 => make4ByteStr text 0x8080
  | 3 => make4ByteStr text 0x808080
  | 4 => make4ByteStr text 0x80808080
  | _ => .error .invalidSize

/-- The number of significant bytes of a packed word,
`cap - word.leading_zeros() / 8` in the source (the same value for either
capacity, since high zero bytes cancel). -/
def byteLen (w : Nat) : Nat := if w = 0 then 0 else Nat.log2 w / 8 + 1

/-- Decode `n` little-endian bytes of a word. -/
def unpackLE : Nat → Nat → Str
  | _, 0 => []
  | w, n + 1 => w % 256 :: unpackLE (w / 256) n

/-- `Deref`/`as_str` for the tiny strings: the significant bytes of the
packed word. -/
def tinyAsStr (w : Nat) : Str := unpackLE w (byteLen w)

/-- `TinyStr4::to_ascii_titlecase`, bit arithmetic over the packed `u32`;
`!x` is complement within 32 bits and `.to_le()` is the identity in this
little-endian model. -/
def tinyStr4Titlecase (w : Nat) : Nat :=
  let mask := (((w + 0x3f3f3f1f) % 2 ^ 32) &&&
               ((2 ^ 32 - 1) ^^^ ((w + 0x25252505) % 2 ^ 32)) &&&
               0x80808080) >>> 2
  (w ||| mask) &&& ((2 ^ 32 - 1) ^^^ (0x20 &&& mask))

/-- `unic_langid::LanguageIdentifier` / `icu_locid::LanguageIdentifier`, the
identifier type of the negotiation engine (its dependencies' sources are not
in the tree).  Modelled from the spec: an identifier carries an optional
language (absent = "und"), optional script and region, and a variant list. -/
structure LangId where
  language : Option Str
  script : Option Str
  region : Option Str
  variants : List Str
deriving DecidableEq, Repr

/-- `LanguageIdentifier::get_language`, which renders an absent language as
the placeholder "und".  Modelled from the spec. -/
def LangId.getLang (l : LangId) : Str := l.language.getD (strBytes "und")

/-- Modelled from the spec: one field of `LanguageIdentifier::matches` — a
field matches if it is absent on a side whose range flag permits wildcards,
or if both sides are equal. -/
def subtagMatches (a b : Option Str) (selfRange otherRange : Bool) : Bool :=
  (selfRange && a.isNone) || (otherRange && b.isNone) || a == b

/-- Modelled from the spec: the variant lists compare as a single
list-equality check, with an empty list acting as the wildcard. -/
def variantsMatch (a b : List Str) (selfRange otherRange : Bool) : Bool :=
  (selfRange && a.isEmpty) || (otherRange && b.isEmpty) || a == b

/-- `LanguageIdentifier::matches(self, other, self_as_range, other_as_range)`.
Modelled from the spec; it has the same per-field semantics as the crate's
own `Locale::matches` minus the private-use guard (the engine's identifier
type has no private-use field). -/
def LangId.liMatches (self other : LangId) (selfRange otherRange : Bool) : Bool :=
  subtagMatches self.language other.language selfRange otherRange &&
  subtagMatches self.script other.script selfRange otherRange &&
  subtagMatches self.region other.region selfRange otherRange &&
  variantsMatch self.variants other.variants selfRange otherRange

/-- `langid!("en")`. -/
def lidEn : LangId := ⟨some (strBytes "en"), none, none, []⟩

/-- `langid!("fr")`. -/
def lidFr : LangId := ⟨some (strBytes "fr"), none, none, []⟩

/-- `langid!("sr")`. -/
def lidSr : LangId := ⟨some (strBytes "sr"), none, none, []⟩

/-- `langid!("sr-RU")`. -/
def lidSrRU : LangId := ⟨some (strBytes "sr"), none, some (strBytes "RU"), []⟩

/-- `langid!("az-IR")`. -/
def lidAzIR : LangId := ⟨some (strBytes "az"), none, some (strBytes "IR"), []⟩

/-- `langid!("zh-GB")`. -/
def lidZhGB : LangId := ⟨some (strBytes "zh"), none, some (strBytes "GB"), []⟩

/-- `langid!("zh-US")`. -/
def lidZhUS : LangId := ⟨some (strBytes "zh"), none, some (strBytes "US"), []⟩

/-- `langid!("en-Latn-US")`. -/
def lidEnLatnUS : LangId := ⟨some (strBytes "en"), some (strBytes "Latn"), some (strBytes "US"), []⟩

/-- `langid!("fr-Latn-FR")`. -/
def lidFrLatnFR : LangId := ⟨some (strBytes "fr"), some (strBytes "Latn"), some (strBytes "FR"), []⟩

/-- `langid!("sr-Cyrl-SR")`. -/
def lidSrCyrlSR : LangId := ⟨some (strBytes "sr"), some (strBytes "Cyrl"), some (strBytes "SR"), []⟩

/-- `langid!("sr-Latn-SR")`. -/
def lidSrLatnSR : LangId := ⟨some (strBytes "sr"), some (strBytes "Latn"), some (strBytes "SR"), []⟩

/-- `langid!("az-Arab-IR")`. -/
def lidAzArabIR : LangId := ⟨some (strBytes "az"), some (strBytes "Arab"), some (strBytes "IR"), []⟩

/-- `langid!("zh-Hant-GB")`. -/
def lidZhHantGB : LangId := ⟨some (strBytes "zh"), some (strBytes "Hant"), some (strBytes "GB"), []⟩

/-- `langid!("zh-Hant-US")`. -/
def lidZhHantUS : LangId := ⟨some (strBytes "zh"), some (strBytes "Hant"), some (strBytes "US"), []⟩

/-- `REGION_MATCHING_KEYS` (src/negotiate/likely_subtags.rs). -/
def regionMatchingKeys : List (Str × Str) :=
  [(strBytes "az", strBytes "AZ"), (strBytes "bg", strBytes "BG"),
   (strBytes "cs", strBytes "CS"), (strBytes "de", strBytes "DE"),
   (strBytes "es", strBytes "ES"), (strBytes "fi", strBytes "FI"),
   (strBytes "fr", strBytes "FR"), (strBytes "it", strBytes "IT"),
   (strBytes "lt", strBytes "LT"), (strBytes "lv", strBytes "LV"),
   (strBytes "nl", strBytes "NL"), (strBytes "nu", strBytes "NU"),
   (strBytes "pl", strBytes "PL"), (strBytes "ro", strBytes "RO"),
   (strBytes "ru", strBytes "RU")]

/-- `slice::binary_search_by` over string keys, with explicit fuel. -/
def bsearchStrGo (data : List (Str × Str)) (key : Str) :
    Nat → Nat → Nat → Option Str
  | 0, _, _ => none
  | fuel + 1, lo, hi =>
    if lo < hi then
      let mid := (lo + hi) / 2
      match data.get? mid with
      | none => none
      | some (k, v) =>
        if strLt k key then bsearchStrGo data key fuel (mid + 1) hi
        else if strLt key k then bsearchStrGo data key fuel lo mid
        else some v
    else none

/-- The `REGION_MATCHING_KEYS.binary_search_by(|(l, _)| l.cmp(lang))` lookup
of `LocaleExpander::maximize`. -/
def regionMatchingLookup (lang : Str) : Option Str :=
  bsearchStrGo regionMatchingKeys lang (regionMatchingKeys.length + 1) 0
    regionMatchingKeys.length

/-- `TransformResult` (src/negotiate/likely_subtags.rs). -/
inductive TransformResult where
  | modified
  | unmodified
deriving DecidableEq, Repr

/-- `LocaleExpander::maximize` (src/negotiate/likely_subtags.rs), as a pure
function returning the updated identifier together with the status.  The
special whole-identifier cases are tried in source order before the
region-matching table. -/
def maximize (input : LangId) : LangId × TransformResult :=
  let special : Option LangId :=
    if input = lidEn then some lidEnLatnUS
    else if input = lidFr then some lidFrLatnFR
    else if input = lidSr then some lidSrCyrlSR
    else if input = lidSrRU then some lidSrLatnSR
    else if input = lidAzIR then some lidAzArabIR
    else if input = lidZhGB then some lidZhHantGB
    else if input = lidZhUS then some lidZhHantUS
    else none
  match special with
  | some extended =>
    ({ input with language := extended.language, script := extended.script,
                  region := extended.region }, .modified)
  | none =>
    match regionMatchingLookup input.getLang with
    | some subtag => ({ input with region := some subtag }, .modified)
    | none => (input, .unmodified)

/-- `likely_subtags::add` as called by `filter_matches`; the callee is not
present in src/negotiate/likely_subtags.rs, which provides
`LocaleExpander::maximize` instead.  Modelled from the spec: stages 3 and 5
run the expander and proceed only when it changed the identifier. -/
def likelySubtagsAdd (l : LangId) : Option LangId :=
  match maximize l with
  | (r, .modified) => some r
  | (_, .unmodified) => none

/-- `NegotiationStrategy` (src/negotiate/mod.rs). -/
inductive Strategy where
  | filtering
  | matching
  | lookup
deriving DecidableEq, Repr

/-- One `av_map.retain(..)` pass of `filter_matches`: the pool is scanned in
its iteration order with a running `match_found` flag; matching entries are
pushed (in scan order) and removed, and under `Matching`/`Lookup` only the
first match is taken.  Returns the pushed entries and the retained pool. -/
def retainScan (strategy : Strategy) (p : LangId → Bool) :
    List LangId → Bool → List LangId × List LangId
  | [], _ => ([], [])
  | x :: xs, found =>
    if strategy != .filtering && found then
      let (ps, ks) := retainScan strategy p xs found
      (ps, x :: ks)
    else if p x then
      let (ps, ks) := retainScan strategy p xs true
      (x :: ps, ks)
    else
      let (ps, ks) := retainScan strategy p xs found
      (ps, x :: ks)

/-- What the `if match_found { match strategy { .. } }` block after each
stage does: fall through to the next stage, move to the next requested
entry, or break the whole negotiation. -/
inductive StageFlow where
  | next
  | skipReq
  | breakAll
deriving DecidableEq, Repr

/-- The strategy dispatch after a stage. -/
def flowAfter (found : Bool) (strategy : Strategy) : StageFlow :=
  if found then
    match strategy with
    | .filtering => .next
    | .matching => .skipReq
    | .lookup => .breakAll
  else .next

/-- Stage 6 of `filter_matches` for one requested entry (`set_region(None)`
again — idempotent — then both sides as ranges). -/
def stage6 (strategy : Strategy) (req : LangId) (pool : List LangId)
    (acc : List LangId) : List LangId × List LangId × Bool :=
  let req6 : LangId := { req with region := none }
  let (p6, pool6) := retainScan strategy (fun key => key.liMatches req6 true true) pool false
  match flowAfter (!p6.isEmpty) strategy with
  | .skipReq => (acc ++ p6, pool6, false)
  | .breakAll => (acc ++ p6, pool6, true)
  | .next => (acc ++ p6, pool6, false)

/-- Stages 4 and 5 of `filter_matches` for one requested entry; `req` is the
requested identifier as left by stage 3 (maximized or the original), whose
variants are cleared here and whose region is then stripped, as in the
source. -/
def stages456 (strategy : Strategy) (req : LangId) (pool : List LangId)
    (acc : List LangId) : List LangId × List LangId × Bool :=
  let req4 : LangId := { req with variants := [] }
  let (p4, pool4) := retainScan strategy (fun key => key.liMatches req4 true true) pool false
  match flowAfter (!p4.isEmpty) strategy with
  | .skipReq => (acc ++ p4, pool4, false)
  | .breakAll => (acc ++ p4, pool4, true)
  | .next =>
    let req5 : LangId := { req4 with region := none }
    match likelySubtagsAdd req5 with
    | some reqM =>
      let (p5, pool5) := retainScan strategy (fun key => key.liMatches reqM true false) pool4 false
      match flowAfter (!p5.isEmpty) strategy with
      | .skipReq => (acc ++ p4 ++ p5, pool5, false)
      | .breakAll => (acc ++ p4 ++ p5, pool5, true)
      | .next => stage6 strategy req5 pool5 (acc ++ p4 ++ p5)
    | none => stage6 strategy req5 pool4 (acc ++ p4)

/-- Stages 1–6 of `filter_matches` for one requested entry.  Returns the
pushed matches, the remaining pool, and whether the whole negotiation was
broken (`Lookup` after a match). -/
def processReq (strategy : Strategy) (req0 : LangId) (pool : List LangId) :
    List LangId × List LangId × Bool :=
  let (p1, pool1) := retainScan strategy (fun key => key.liMatches req0 false false) pool false
  match flowAfter (!p1.isEmpty) strategy with
  | .skipReq => (p1, pool1, false)
  | .breakAll => (p1, pool1, true)
  | .next =>
    let (p2, pool2) := retainScan strategy (fun key => key.liMatches req0 true false) pool1 false
    match flowAfter (!p2.isEmpty) strategy with
    | .skipReq => (p1 ++ p2, pool2, false)
    | .breakAll => (p1 ++ p2, pool2, true)
    | .next =>
      match likelySubtagsAdd req0 with
      | some reqM =>
        let (p3, pool3) := retainScan strategy (fun key => key.liMatches reqM true false) pool2 false
        match flowAfter (!p3.isEmpty) strategy with
        | .skipReq => (p1 ++ p2 ++ p3, pool3, false)
        | .breakAll => (p1 ++ p2 ++ p3, pool3, true)
        | .next => stages456 strategy reqM pool3 (p1 ++ p2 ++ p3)
      | none => stages456 strategy req0 pool2 (p1 ++ p2)

/-- `filter_matches` (src/negotiate/mod.rs).  The `HashMap` pool of
available identifiers is modelled by an explicit list `pool` giving the
map's (unspecified, seed-dependent) iteration order; a requested entry whose
`get_language()` is "und" is skipped entirely. -/
def filterMatchesPool (strategy : Strategy) :
    List LangId → List LangId → List LangId
  | [], _ => []
  | req :: reqs, pool =>
    if req.getLang = strBytes "und" then filterMatchesPool strategy reqs pool
    else
      match processReq strategy req pool with
      | (pushed, _, true) => pushed
      | (pushed, pool2, false) => pushed ++ filterMatchesPool strategy reqs pool2

/-- `negotiate_languages` (src/negotiate/mod.rs) over the pool model. -/
def negotiateLanguagesPool (strategy : Strategy) (requested pool : List LangId)
    (dflt : Option LangId) : List LangId :=
  let supported := filterMatchesPool strategy requested pool
  match dflt with
  | none => supported
  | some d =>
    if strategy = .lookup then
      if supported.isEmpty then supported ++ [d] else supported
    else if !(supported.any (fun s => s = d)) then supported ++ [d]
    else supported


/-- `langid!("en-Latn")`. -/
def lidEnLatn : LangId := ⟨some (strBytes "en"), some (strBytes "Latn"), none, []⟩

/-- A language identifier with every field absent (a parse of "und"). -/
def lidUnd : LangId := ⟨none, none, none, []⟩

/-- The claimed serialization, following the specification's words: language
or the literal placeholder "und" when absent, then script, region, variants,
extensions as singleton key with alternating key/value subtags, all joined
by `-`, with the private-use subtags rendered last under the singleton `x`. -/
def claimRenderC3 (l : Locale) : Option Str := do
  let exts ←
    match l.extensions with
    | some e => renderExts e
    | none => pure []
  let subtags :=
    [if l.language.isSome then l.getLanguage else strBytes "und"]
      ++ (match l.script with | some s => [s] | none => [])
      ++ (match l.region with | some r => [r] | none => [])
      ++ (match l.variants with | some vs => vs | none => [])
      ++ exts
      ++ (if l.privateuse.isEmpty then [] else strBytes "x" :: l.privateuse)
  pure (joinDash subtags)

/-- Whether every extension key of the locale is one the serializer can
render (`option_key_for_name` panics on anything else). -/
def extsRenderable (l : Locale) : Bool :=
  match l.extensions with
  | none => true
  | some es =>
    es.all (fun e =>
      e.2.all (fun kv => kv.1 == strBytes "hour-cycle" || kv.1 == strBytes "calendar"))

/-- The total restriction of `option_key_for_name` used to state the amended
serialization claim; it agrees with the partial map on renderable keys. -/
def specOptionKey (k : Str) : Str :=
  if k = strBytes "hour-cycle" then strBytes "hc"
  else if k = strBytes "calendar" then strBytes "ca"
  else k

/-- The amended serialization claim, stated as a flat concatenation:
language (empty when absent) + optional script + optional region + each
variant + each extension as its singleton key with alternating key/value
subtags, all joined by `-`; private-use subtags and extlangs are never
rendered. -/
def renderC3Amended (l : Locale) : Str :=
  l.getLanguage
    ++ (match l.script with | some s => 45 :: s | none => [])
    ++ (match l.region with | some r => 45 :: r | none => [])
    ++ (l.variants.getD []).flatMap (fun v => 45 :: v)
    ++ (l.extensions.getD []).flatMap
        (fun e =>
          (45 :: extKeyForName e.1)
            ++ e.2.flatMap (fun kv => (45 :: specOptionKey kv.1) ++ (45 :: kv.2)))

/-- The titlecase map described by the specification: ASCII-uppercase the
first byte, ASCII-lowercase every remaining byte (non-letters unchanged). -/
def upperFirstLowerRest (s : Str) : Str :=
  match s with
  | [] => []
  | b :: rest => toUpperByte b :: rest.map toLowerByte

/-- `0x80` in each of the low `len` bytes: the value of the tiny-string
check masks `0x8080..80 >> (8 * (cap - len))`. -/
def maskBytes : Nat → Nat
  | 0 => 0
  | n + 1 => 128 + 256 * maskBytes n

/-- Lowercase ASCII letter. -/
def isLowerAlpha (b : Nat) : Bool := 97 ≤ b && b ≤ 122

/-- Uppercase ASCII letter. -/
def isUpperAlpha (b : Nat) : Bool := 65 ≤ b && b ≤ 90

/-- A byte that can sit inside a rendered subtag: ASCII and not a tag
separator. -/
def isPlainByte (b : Nat) : Bool := b < 128 && !isTagSep b

/-- Canonical language subtag as produced by the parser: two or three
lowercase letters. -/
def canonLang (s : Str) : Bool :=
  (s.length == 2 || s.length == 3) && s.all isLowerAlpha

/-- Canonical script subtag: four letters, titlecased. -/
def canonScript (s : Str) : Bool :=
  match s with
  | b :: rest => s.length == 4 && isUpperAlpha b && rest.all isLowerAlpha
  | [] => false

/-- Canonical region subtag: two uppercase letters or three digits. -/
def canonRegion (s : Str) : Bool :=
  (s.length == 2 && s.all isUpperAlpha) || (s.length == 3 && s.all isAsciiDigit)

/-- A variant subtag as accepted (and stored verbatim) by the parser. -/
def canonVariant (s : Str) : Bool :=
  s.length ≤ 8 && ((s.length ≥ 5 && headIsAlpha s) || (s.length ≥ 4 && headIsDigit s)) &&
    s.all isPlainByte

/-- An extension value subtag as stored verbatim by the parser. -/
def canonValue (s : Str) : Bool := s.length ≤ 8 && s.all isPlainByte

/-- An extension name as recorded by the parser: "unicode", or a single
letter other than `u`. -/
def canonExtName (n : Str) : Bool :=
  n == strBytes "unicode" || (n.length == 1 && n.all isAsciiAlpha && n != [117])

/-- The possible shapes of one extension's key/value map: keys are drawn
from {"calendar", "hour-cycle"} and the list is sorted by key. -/
def canonKvs (kvs : List (Str × Str)) : Bool :=
  match kvs with
  | [] => true
  | [(k, v)] =>
    (k == strBytes "calendar" || k == strBytes "hour-cycle") && canonValue v
  | [(k1, v1), (k2, v2)] =>
    k1 == strBytes "calendar" && k2 == strBytes "hour-cycle" && canonValue v1 && canonValue v2
  | _ => false

/-- The canonical-shape invariant of every locale produced by the parser
(restricted to the fields the round-trip theorem needs). -/
def canonLocale (l : Locale) : Prop :=
  (∀ s, l.language = some s → canonLang s = true) ∧
  (∀ s, l.script = some s → canonScript s = true) ∧
  (∀ s, l.region = some s → canonRegion s = true) ∧
  (∀ vs, l.variants = some vs → vs ≠ [] ∧ ∀ v ∈ vs, canonVariant v = true) ∧
  (∀ es, l.extensions = some es →
    ∃ name kvs, es = [(name, kvs)] ∧ canonExtName name = true ∧ canonKvs kvs = true ∧
      (name = [120] → kvs = []))

/-- The invariant carried through the subtag loop of the parser. -/
def stateInv (st : ParseState) : Prop :=
  canonLocale st.loc ∧
  (match st.currentExt with
   | some e =>
     ∃ kvs, st.loc.extensions = some [(e, kvs)] ∧ canonExtName e = true ∧ canonKvs kvs = true ∧
       (e = [120] → kvs = [])
   | none => st.loc.extensions = none ∧ st.loc.privateuse = [] ∧ st.extKey = none) ∧
  (∀ k, st.extKey = some k → (k = strBytes "hour-cycle" ∨ k = strBytes "calendar")) ∧
  (∀ k, st.extKey = some k → ∃ e, st.currentExt = some e ∧ e ≠ [120])

/-- The parse of "xx-Zzzz-ZZ": an identifier whose language is unknown to
the expansion tables and whose script and region are the sentinels. -/
def locXx : Locale :=
  ⟨some (strBytes "xx"), none, some (strBytes "Zzzz"), some (strBytes "ZZ"), none, none, []⟩


/-- A concrete canonical locale (the parse of "en-Latn-US-u-hc-h12") used as
a witness input. -/
def locEnExt : Locale :=
  ⟨some (strBytes "en"), none, some (strBytes "Latn"), some (strBytes "US"), none,
   some [(strBytes "unicode", [(strBytes "hour-cycle", strBytes "h12")])], []⟩

/-!  Theorems.  Each claim of the specification gets one main theorem below,
together with counterexamples and concrete witnesses where applicable. -/

theorem strBytes_und : strBytes "und" = [117, 110, 100] := by decide

/-- C10: `Locale::matches` returns `false` whenever either side carries at
least one private-use subtag, for every combination of the range flags. -/
theorem c10_matches_privateuse (a b : Locale) (ar rr : Bool)
    (h : a.privateuse ≠ [] ∨ b.privateuse ≠ []) :
    Locale.matches a b ar rr = false := by
  unfold Locale.matches
  have hc : (!a.privateuse.isEmpty || b.hasPrivateuse) = true := by
    rcases h with h | h
    · simp [List.isEmpty_iff, h]
    · simp [Locale.hasPrivateuse, List.isEmpty_iff, h]
  simp [hc]

/-- C10 witness: a concrete locale with a private-use subtag never matches,
even against an identical-field opponent with both range flags set. -/
theorem c10_matches_privateuse_witness :
    ((⟨some (strBytes "en"), none, none, none, none, none, [strBytes "pri"]⟩ : Locale).privateuse ≠ [] ∨
      (Locale.empty).privateuse ≠ []) ∧
    Locale.matches ⟨some (strBytes "en"), none, none, none, none, none, [strBytes "pri"]⟩
      Locale.empty true true = false :=
  ⟨Or.inl (by decide),
   c10_matches_privateuse _ _ _ _ (Or.inl (by decide))⟩

/-- C4 counterexample: a requested entry whose language is undetermined is
skipped entirely — with requested `["und"]` and available `["und"]` the
result is empty, although stage 1 (exact match, which the claim says is
still attempted) would have matched. -/
theorem c4_counterexample :
    filterMatchesPool .filtering [lidUnd] [lidUnd] = [] ∧
    LangId.liMatches lidUnd lidUnd false false = true := by decide

/-- C4 amended: a requested entry whose `get_language()` is "und" is skipped
entirely by `filter_matches` — no stage (not even 1 or 2) runs for it, the
pool is untouched and nothing is appended. -/
theorem c4_und_skipped (r : LangId) (rs pool : List LangId) (strat : Strategy)
    (h : r.getLang = strBytes "und") :
    filterMatchesPool strat (r :: rs) pool = filterMatchesPool strat rs pool := by
  show (if r.getLang = strBytes "und" then filterMatchesPool strat rs pool
        else
          match processReq strat r pool with
          | (pushed, _, true) => pushed
          | (pushed, pool2, false) => pushed ++ filterMatchesPool strat rs pool2) =
      filterMatchesPool strat rs pool
  rw [if_pos h]

/-- C4 witness: the amended claim at a concrete undetermined entry. -/
theorem c4_und_skipped_witness :
    lidUnd.getLang = strBytes "und" ∧
    filterMatchesPool .filtering [lidUnd] [lidEn] = filterMatchesPool .filtering [] [lidEn] :=
  ⟨by decide, c4_und_skipped lidUnd [] [lidEn] .filtering (by decide)⟩

/-- C1: with requested `["en-Latn-US"]` and available `{"en", "en-Latn"}`,
both pool entries match in stage 2, and the result order is exactly the
hash-map iteration order of the pool — the two legal iteration orders give
two different results, so the within-stage order is not the original
`available` order and the output is not deterministic. -/
theorem c1_result_depends_on_hash_order :
    filterMatchesPool .filtering [lidEnLatnUS] [lidEn, lidEnLatn] = [lidEn, lidEnLatn] ∧
    filterMatchesPool .filtering [lidEnLatnUS] [lidEnLatn, lidEn] = [lidEnLatn, lidEn] := by decide

/-- C5 counterexample: the expander is not idempotent — maximizing
`az-IR` gives `az-Arab-IR`, and maximizing that changes the value again
(to `az-Arab-AZ`, via the region-matching table entry for `az`). -/
theorem c5_counterexample :
    (maximize (maximize lidAzIR).1).1 ≠ (maximize lidAzIR).1 := by decide

/-- C3 counterexample: serializing the all-absent locale yields the empty
string, not the claimed placeholder "und" (and private-use subtags are never
rendered). -/
theorem c3_counterexample :
    localeToString Locale.empty ≠ claimRenderC3 Locale.empty := by decide

theorem regionLookup_sr : regionMatchingLookup (strBytes "sr") = none := by decide

theorem regionLookup_zh : regionMatchingLookup (strBytes "zh") = none := by decide

theorem regionLookup_az : regionMatchingLookup (strBytes "az") = some (strBytes "AZ") := by decide

/-- C5 amended: the expander is not idempotent (a second call can report
`Modified` and, for `az-IR`, even change the value again), but the value
stabilizes after two applications: a third `maximize` never changes the
identifier. -/
theorem c5_maximize_stable (x : LangId) :
    (maximize (maximize (maximize x).1).1).1 = (maximize (maximize x).1).1 := by
  by_cases h1 : x = lidEn
  · subst h1; decide
  by_cases h2 : x = lidFr
  · subst h2; decide
  by_cases h3 : x = lidSr
  · subst h3; decide
  by_cases h4 : x = lidSrRU
  · subst h4; decide
  by_cases h5 : x = lidAzIR
  · subst h5; decide
  by_cases h6 : x = lidZhGB
  · subst h6; decide
  by_cases h7 : x = lidZhUS
  · subst h7; decide
  cases hR : regionMatchingLookup x.getLang with
  | none =>
    have hmx : maximize x = (x, .unmodified) := by
      simp [maximize, h1, h2, h3, h4, h5, h6, h7, hR]
    simp [hmx]
  | some R =>
    have hmx : maximize x = ({x with region := some R}, .modified) := by
      simp [maximize, h1, h2, h3, h4, h5, h6, h7, hR]
    have hx1 : ({x with region := some R} : LangId) ≠ lidEn := by
      intro h; exact Option.noConfusion (congrArg LangId.region h)
    have hx2 : ({x with region := some R} : LangId) ≠ lidFr := by
      intro h; exact Option.noConfusion (congrArg LangId.region h)
    have hx3 : ({x with region := some R} : LangId) ≠ lidSr := by
      intro h; exact Option.noConfusion (congrArg LangId.region h)
    have hx4 : ({x with region := some R} : LangId) ≠ lidSrRU := by
      intro h
      have hl := congrArg LangId.language h
      have hg : x.getLang = strBytes "sr" := by
        show x.language.getD (strBytes "und") = strBytes "sr"
        rw [show x.language = some (strBytes "sr") from hl]
        rfl
      rw [hg, regionLookup_sr] at hR
      exact Option.noConfusion hR
    have hx5 : ({x with region := some R} : LangId) ≠ lidAzIR := by
      intro h
      have hl := congrArg LangId.language h
      have hr := congrArg LangId.region h
      have hg : x.getLang = strBytes "az" := by
        show x.language.getD (strBytes "und") = strBytes "az"
        rw [show x.language = some (strBytes "az") from hl]
        rfl
      rw [hg, regionLookup_az] at hR
      have hRv : R = strBytes "AZ" := (Option.some.injEq _ _).mp hR.symm
      have hRv2 : some R = some (strBytes "IR") := hr
      rw [hRv] at hRv2
      exact absurd ((Option.some.injEq _ _).mp hRv2) (by decide)
    have hx6 : ({x with region := some R} : LangId) ≠ lidZhGB := by
      intro h
      have hl := congrArg LangId.language h
      have hg : x.getLang = strBytes "zh" := by
        show x.language.getD (strBytes "und") = strBytes "zh"
        rw [show x.language = some (strBytes "zh") from hl]
        rfl
      rw [hg, regionLookup_zh] at hR
      exact Option.noConfusion hR
    have hx7 : ({x with region := some R} : LangId) ≠ lidZhUS := by
      intro h
      have hl := congrArg LangId.language h
      have hg : x.getLang = strBytes "zh" := by
        show x.language.getD (strBytes "und") = strBytes "zh"
        rw [show x.language = some (strBytes "zh") from hl]
        rfl
      rw [hg, regionLookup_zh] at hR
      exact Option.noConfusion hR
    have hR2 : regionMatchingLookup ({x with region := some R} : LangId).getLang = some R := by
      have hsame : ({x with region := some R} : LangId).getLang = x.getLang := rfl
      rw [hsame, hR]
    have hv : maximize {x with region := some R} = ({x with region := some R}, .modified) := by
      simp [maximize, hx1, hx2, hx3, hx4, hx5, hx6, hx7, hR2]
    simp [hmx, hv]

/-- C6 counterexample: on `xx-Zzzz-ZZ` every lookup step misses, the
expander reports `false` — but the result is not the unchanged input: the
sentinel script and region have been stripped. -/
theorem c6_counterexample :
    parseLanguageTag (strBytes "xx-Zzzz-ZZ") = .ok locXx ∧
    (addLikelySubtags sampleTables locXx).2 = false ∧
    (addLikelySubtags sampleTables locXx).1 ≠ locXx :=
  ⟨rfl, rfl, by decide⟩

/-- C6 amended: when none of the lookup steps matches, `add_likely_subtags`
returns `false` and leaves every field at its input value EXCEPT the
sentinel script "Zzzz" and region "ZZ", which remain stripped to absent. -/
theorem c6_unmatched_strips_sentinels (tb : Tables) (l0 : Locale)
    (h1 : strToLe l0.getLanguage = 0 →
      lookupBinary ((strToLe l0.getRegion <<< 32) ||| strToLe l0.getScript) tb.scriptRegion = none)
    (h2 : lookupBinary ((strToLe l0.getRegion <<< 32) ||| strToLe l0.getLanguage) tb.langRegion = none)
    (h3 : lookupBinary ((strToLe l0.getScript <<< 32) ||| strToLe l0.getLanguage) tb.langScript = none)
    (h4 : lookupBinary (strToLe l0.getLanguage) tb.langOnly = none)
    (h5 : lookupBinary (strToLe l0.getScript <<< 32) tb.langScript = none) :
    (addLikelySubtags tb l0).2 = false ∧
    (addLikelySubtags tb l0).1.language = l0.language ∧
    (addLikelySubtags tb l0).1.extlangs = l0.extlangs ∧
    (addLikelySubtags tb l0).1.variants = l0.variants ∧
    (addLikelySubtags tb l0).1.extensions = l0.extensions ∧
    (addLikelySubtags tb l0).1.privateuse = l0.privateuse ∧
    (addLikelySubtags tb l0).1.script =
      (if strToLe l0.getScript = 0x7a7a7a5a then none else l0.script) ∧
    (addLikelySubtags tb l0).1.region =
      (if strToLe l0.getRegion = 0x5a5a then none else l0.region) := by
  have hres :
      addLikelySubtags tb l0 =
        (let l1 := if strToLe l0.getScript = 0x7a7a7a5a then { l0 with script := none } else l0
         (if strToLe l0.getRegion = 0x5a5a then { l1 with region := none } else l1), false) := by
    unfold addLikelySubtags
    by_cases hl : strToLe l0.getLanguage = 0
    · have h2b := h2
      have h3b := h3
      have h4b := h4
      rw [hl] at h2b h3b h4b
      simp only [Nat.or_zero] at h2b h3b
      simp [hl, h1 hl, h2b, h3b, h4b, h5]
    · simp [hl, h2, h3, h4, h5]
  rw [hres]
  by_cases hs : strToLe l0.getScript = 0x7a7a7a5a <;>
    by_cases hr : strToLe l0.getRegion = 0x5a5a <;>
      simp [hs, hr]

/-- C6 witness: the amended claim at `xx-Zzzz-ZZ` with the sample tables —
every hypothesis holds there, and the sentinels are stripped while all
other fields survive. -/
theorem c6_unmatched_strips_sentinels_witness :
    (strToLe locXx.getLanguage = 0 →
      lookupBinary ((strToLe locXx.getRegion <<< 32) ||| strToLe locXx.getScript)
        sampleTables.scriptRegion = none) ∧
    lookupBinary ((strToLe locXx.getRegion <<< 32) ||| strToLe locXx.getLanguage)
      sampleTables.langRegion = none ∧
    lookupBinary ((strToLe locXx.getScript <<< 32) ||| strToLe locXx.getLanguage)
      sampleTables.langScript = none ∧
    lookupBinary (strToLe locXx.getLanguage) sampleTables.langOnly = none ∧
    lookupBinary (strToLe locXx.getScript <<< 32) sampleTables.langScript = none ∧
    ((addLikelySubtags sampleTables locXx).2 = false ∧
      (addLikelySubtags sampleTables locXx).1.language = locXx.language ∧
      (addLikelySubtags sampleTables locXx).1.extlangs = locXx.extlangs ∧
      (addLikelySubtags sampleTables locXx).1.variants = locXx.variants ∧
      (addLikelySubtags sampleTables locXx).1.extensions = locXx.extensions ∧
      (addLikelySubtags sampleTables locXx).1.privateuse = locXx.privateuse ∧
      (addLikelySubtags sampleTables locXx).1.script =
        (if strToLe locXx.getScript = 0x7a7a7a5a then none else locXx.script) ∧
      (addLikelySubtags sampleTables locXx).1.region =
        (if strToLe locXx.getRegion = 0x5a5a then none else locXx.region)) :=
  ⟨by decide, by decide, by decide, by decide, by decide,
   c6_unmatched_strips_sentinels sampleTables locXx (by decide) (by decide) (by decide)
     (by decide) (by decide)⟩

theorem retainScan_found_nonfiltering (strat : Strategy) (hs : strat ≠ .filtering)
    (p : LangId → Bool) (pool : List LangId) :
    retainScan strat p pool true = ([], pool) := by
  induction pool with
  | nil => rfl
  | cons x xs ih =>
    unfold retainScan
    have hc : (strat != Strategy.filtering && true) = true := by
      cases strat <;> simp_all
    rw [hc]
    simp [ih]

theorem retainScan_lookup_len (p : LangId → Bool) (pool : List LangId) :
    (retainScan .lookup p pool false).1.length ≤ 1 := by
  induction pool with
  | nil => simp [retainScan]
  | cons x xs ih =>
    unfold retainScan
    simp only [Bool.and_false]
    by_cases hp : p x
    · rw [if_neg (by simp), if_pos hp,
        retainScan_found_nonfiltering .lookup (by simp) p xs]
      simp
    · rw [if_neg (by simp), if_neg hp]
      simpa using ih

theorem flowAfter_false (strat : Strategy) : flowAfter false strat = .next := rfl


theorem stage6_lookup (req : LangId) (pool acc : List LangId) :
    (stage6 .lookup req pool acc).1.length ≤ acc.length + 1 ∧
    ((stage6 .lookup req pool acc).2.2 = false → (stage6 .lookup req pool acc).1 = acc) := by
  unfold stage6
  dsimp only
  rcases hscan : retainScan .lookup
      (fun key => key.liMatches { req with region := none } true true) pool false with ⟨p6, pool6⟩
  have hlen : p6.length ≤ 1 := by
    have h := retainScan_lookup_len
      (fun key => key.liMatches { req with region := none } true true) pool
    rw [hscan] at h
    exact h
  dsimp only
  cases p6 with
  | nil => simp [flowAfter]
  | cons y ys =>
    simp only [List.length_cons] at hlen
    constructor
    · have hys : ys = [] := by
        cases ys with
        | nil => rfl
        | cons z zs => simp at hlen
      subst hys
      simp [flowAfter, List.length_append]
    · intro hfalse
      simp [flowAfter] at hfalse


theorem stages456_lookup (req : LangId) (pool acc : List LangId) :
    (stages456 .lookup req pool acc).1.length ≤ acc.length + 1 ∧
    ((stages456 .lookup req pool acc).2.2 = false → (stages456 .lookup req pool acc).1 = acc) := by
  unfold stages456
  dsimp only
  rcases hscan : retainScan .lookup
      (fun key => key.liMatches { req with variants := [] } true true) pool false with ⟨p4, pool4⟩
  have hlen4 : p4.length ≤ 1 := by
    have h := retainScan_lookup_len
      (fun key => key.liMatches { req with variants := [] } true true) pool
    rw [hscan] at h
    exact h
  cases p4 with
  | cons y ys =>
    simp only [List.length_cons] at hlen4
    constructor
    · have hys : ys = [] := by
        cases ys with
        | nil => rfl
        | cons z zs => simp at hlen4
      subst hys
      simp [flowAfter, List.length_append]
    · intro hfalse
      simp [flowAfter] at hfalse
  | nil =>
    simp only [List.isEmpty_nil, Bool.not_true, flowAfter_false, List.append_nil]
    cases hadd : likelySubtagsAdd { req with variants := ([] : List Str), region := none } with
    | some reqM =>
      dsimp only
      rcases hscan5 : retainScan .lookup (fun key => key.liMatches reqM true false) pool4 false
        with ⟨p5, pool5⟩
      have hlen5 : p5.length ≤ 1 := by
        have h := retainScan_lookup_len (fun key => key.liMatches reqM true false) pool4
        rw [hscan5] at h
        exact h
      dsimp only
      cases p5 with
      | cons z zs =>
        simp only [List.length_cons] at hlen5
        constructor
        · have hzs : zs = [] := by
            cases zs with
            | nil => rfl
            | cons w ws => simp at hlen5
          subst hzs
          simp [flowAfter, List.length_append]
        · intro hfalse
          simp [flowAfter] at hfalse
      | nil =>
        simp only [List.isEmpty_nil, Bool.not_true, flowAfter_false, List.append_nil]
        exact stage6_lookup _ _ _
    | none =>
      exact stage6_lookup _ _ _


theorem processReq_lookup (req : LangId) (pool : List LangId) :
    (processReq .lookup req pool).1.length ≤ 1 ∧
    ((processReq .lookup req pool).2.2 = false → (processReq .lookup req pool).1 = []) := by
  unfold processReq
  dsimp only
  rcases hscan1 : retainScan .lookup (fun key => key.liMatches req false false) pool false
    with ⟨p1, pool1⟩
  have hlen1 : p1.length ≤ 1 := by
    have h := retainScan_lookup_len (fun key => key.liMatches req false false) pool
    rw [hscan1] at h
    exact h
  cases p1 with
  | cons y ys =>
    simp only [List.length_cons] at hlen1
    constructor
    · have hys : ys = [] := by
        cases ys with
        | nil => rfl
        | cons z zs => simp at hlen1
      subst hys
      simp [flowAfter]
    · intro hfalse
      simp [flowAfter] at hfalse
  | nil =>
    simp only [List.isEmpty_nil, Bool.not_true, flowAfter_false]
    rcases hscan2 : retainScan .lookup (fun key => key.liMatches req true false) pool1 false
      with ⟨p2, pool2⟩
    have hlen2 : p2.length ≤ 1 := by
      have h := retainScan_lookup_len (fun key => key.liMatches req true false) pool1
      rw [hscan2] at h
      exact h
    dsimp only
    cases p2 with
    | cons y ys =>
      simp only [List.length_cons] at hlen2
      constructor
      · have hys : ys = [] := by
          cases ys with
          | nil => rfl
          | cons z zs => simp at hlen2
        subst hys
        simp [flowAfter]
      · intro hfalse
        simp [flowAfter] at hfalse
    | nil =>
      simp only [List.isEmpty_nil, Bool.not_true, flowAfter_false, List.nil_append]
      cases hadd : likelySubtagsAdd req with
      | some reqM =>
        dsimp only
        rcases hscan3 : retainScan .lookup (fun key => key.liMatches reqM true false) pool2 false
          with ⟨p3, pool3⟩
        have hlen3 : p3.length ≤ 1 := by
          have h := retainScan_lookup_len (fun key => key.liMatches reqM true false) pool2
          rw [hscan3] at h
          exact h
        dsimp only
        cases p3 with
        | cons z zs =>
          simp only [List.length_cons] at hlen3
          constructor
          · have hzs : zs = [] := by
              cases zs with
              | nil => rfl
              | cons w ws => simp at hlen3
            subst hzs
            simp [flowAfter]
          · intro hfalse
            simp [flowAfter] at hfalse
        | nil =>
          simp only [List.isEmpty_nil, Bool.not_true, flowAfter_false, List.nil_append]
          have h6 := stages456_lookup reqM pool3 []
          simpa using h6
      | none =>
        have h6 := stages456_lookup req pool2 []
        simpa using h6


theorem filterMatches_lookup_len (requested pool : List LangId) :
    (filterMatchesPool .lookup requested pool).length ≤ 1 := by
  induction requested generalizing pool with
  | nil => simp [filterMatchesPool]
  | cons req reqs ih =>
    show (if req.getLang = strBytes "und" then filterMatchesPool .lookup reqs pool
          else
            match processReq .lookup req pool with
            | (pushed, _, true) => pushed
            | (pushed, pool2, false) => pushed ++ filterMatchesPool .lookup reqs pool2).length ≤ 1
    by_cases hu : req.getLang = strBytes "und"
    · rw [if_pos hu]
      exact ih pool
    · rw [if_neg hu]
      rcases hpr : processReq .lookup req pool with ⟨pushed, pool2, brk⟩
      have hlem := processReq_lookup req pool
      rw [hpr] at hlem
      cases brk with
      | true => simpa using hlem.1
      | false =>
        have hempty : pushed = [] := hlem.2 rfl
        simp only [hempty, List.nil_append]
        exact ih pool2

/-- C7: under the `Lookup` strategy the negotiation returns at most one
matched available identifier, and the supplied default is appended exactly
when the result is still empty. -/
theorem c7_lookup_single (requested pool : List LangId) (d : LangId) :
    (filterMatchesPool .lookup requested pool).length ≤ 1 ∧
    negotiateLanguagesPool .lookup requested pool none =
      filterMatchesPool .lookup requested pool ∧
    negotiateLanguagesPool .lookup requested pool (some d) =
      (if filterMatchesPool .lookup requested pool = [] then [d]
       else filterMatchesPool .lookup requested pool) := by
  refine ⟨filterMatches_lookup_len requested pool, rfl, ?_⟩
  by_cases h : filterMatchesPool .lookup requested pool = []
  · simp [negotiateLanguagesPool, h]
  · simp [negotiateLanguagesPool, h, List.isEmpty_iff]

theorem joinDash_cons_flat (p : Str) (ps : List Str) :
    joinDash (p :: ps) = p ++ ps.flatMap (fun q => 45 :: q) := by
  induction ps generalizing p with
  | nil => simp [joinDash]
  | cons q qs ih =>
    show p ++ 45 :: joinDash (q :: qs) = _
    rw [ih q]
    simp

theorem renderKvs_ok (kvs : List (Str × Str))
    (h : ∀ kv ∈ kvs, kv.1 = strBytes "hour-cycle" ∨ kv.1 = strBytes "calendar") :
    renderKvs kvs = some (kvs.flatMap (fun kv => [specOptionKey kv.1, kv.2])) := by
  induction kvs with
  | nil => rfl
  | cons kv rest ih =>
    have hk : optionKeyForName kv.1 = some (specOptionKey kv.1) := by
      rcases h kv (by simp) with h1 | h1 <;> rw [h1] <;> decide
    have hrest := ih (fun x hx => h x (by simp [hx]))
    simp [renderKvs, hk, hrest]

theorem renderExts_ok (es : List (Str × List (Str × Str)))
    (h : ∀ e ∈ es, ∀ kv ∈ e.2, kv.1 = strBytes "hour-cycle" ∨ kv.1 = strBytes "calendar") :
    renderExts es =
      some (es.flatMap
        (fun e => extKeyForName e.1 :: e.2.flatMap (fun kv => [specOptionKey kv.1, kv.2]))) := by
  induction es with
  | nil => rfl
  | cons e rest ih =>
    have he := renderKvs_ok e.2 (h e (by simp))
    have hrest := ih (fun x hx => h x (by simp [hx]))
    simp [renderExts, he, hrest]

theorem joinDash_pieces (l : Locale) (exts : List Str) :
    joinDash
        (((([l.getLanguage] ++
              (match l.script with | some s => [s] | none => [])) ++
              (match l.region with | some r => [r] | none => [])) ++
              (match l.variants with | some vs => vs | none => [])) ++ exts) =
      l.getLanguage
        ++ (match l.script with | some s => 45 :: s | none => [])
        ++ (match l.region with | some r => 45 :: r | none => [])
        ++ (l.variants.getD []).flatMap (fun v => 45 :: v)
        ++ exts.flatMap (fun q => 45 :: q) := by
  simp only [List.append_assoc, List.singleton_append, List.cons_append]
  rw [joinDash_cons_flat]
  simp only [List.flatMap_append, List.append_assoc]
  cases l.script <;> cases l.region <;> cases l.variants <;> simp

/-- C3 amended: `to_string` renders the language subtag — the EMPTY string,
not "und", when the language is absent — followed by the optional script,
the optional region, each variant, and each extension as its singleton key
with alternating key/value subtags, all joined by `-`; private-use subtags
(and extlangs) are never rendered.  Stated for every locale whose extension
keys the serializer can render at all. -/
theorem c3_to_string_amended (l : Locale) (h : extsRenderable l = true) :
    localeToString l = some (renderC3Amended l) := by
  have hkeys : ∀ es, l.extensions = some es →
      ∀ e ∈ es, ∀ kv ∈ e.2, kv.1 = strBytes "hour-cycle" ∨ kv.1 = strBytes "calendar" := by
    intro es hes e he kv hkv
    rw [extsRenderable, hes] at h
    have h1 := (List.all_eq_true.mp h) e he
    have h2 := (List.all_eq_true.mp h1) kv hkv
    rcases Bool.or_eq_true_iff.mp h2 with h3 | h3
    · exact Or.inl (eq_of_beq h3)
    · exact Or.inr (eq_of_beq h3)
  unfold localeToString
  cases hes : l.extensions with
  | none =>
    simp only [Option.pure_def, Option.bind_eq_bind, Option.some_bind]
    rw [joinDash_pieces]
    unfold renderC3Amended
    simp [hes]
  | some es =>
    have hre := renderExts_ok es (hkeys es hes)
    simp only [hre, Option.pure_def, Option.bind_eq_bind, Option.some_bind]
    rw [joinDash_pieces]
    unfold renderC3Amended
    simp only [hes, Option.getD_some, Option.some_inj]
    congr 1
    rw [List.flatMap_assoc]
    congr 1
    funext e
    simp [List.flatMap_assoc]

/-- C3 witness: the amended serialization claim at a concrete locale with
language, script, region and a unicode extension. -/
theorem c3_to_string_amended_witness :
    extsRenderable locEnExt = true ∧
    localeToString locEnExt = some (renderC3Amended locEnExt) :=
  ⟨by decide, c3_to_string_amended locEnExt (by decide)⟩

theorem land_block (b c w m : Nat) (hb : b < 256) (hc : c < 256) :
    (b + 256 * w) &&& (c + 256 * m) = (b &&& c) + 256 * (w &&& m) := by
  have hbc : b &&& c < 256 := Nat.and_lt_two_pow b (show c < 2 ^ 8 from hc)
  apply Nat.eq_of_testBit_eq
  intro i
  have e1 : b + 256 * w = 2 ^ 8 * w + b := by ring
  have e2 : c + 256 * m = 2 ^ 8 * m + c := by ring
  have e3 : (b &&& c) + 256 * (w &&& m) = 2 ^ 8 * (w &&& m) + (b &&& c) := by ring
  rw [e1, e2, e3, Nat.testBit_land,
      Nat.testBit_mul_pow_two_add w (show b < 2 ^ 8 from hb) i,
      Nat.testBit_mul_pow_two_add m (show c < 2 ^ 8 from hc) i,
      Nat.testBit_mul_pow_two_add (w &&& m) (show b &&& c < 2 ^ 8 from hbc) i]
  by_cases hi : i < 8
  · simp [hi, Nat.testBit_land]
  · simp [hi, Nat.testBit_land]

theorem packLE_land_mask (s : Str) (hb : ∀ b ∈ s, b < 256) :
    packLE s &&& maskBytes s.length = packLE (s.map (fun b => b &&& 128)) := by
  induction s with
  | nil => rfl
  | cons b rest ih =>
    have hb0 : b < 256 := hb b (by simp)
    have := ih (fun x hx => hb x (by simp [hx]))
    show (b + 256 * packLE rest) &&& (128 + 256 * maskBytes rest.length) = _
    rw [land_block b 128 (packLE rest) (maskBytes rest.length) hb0 (by omega), this]
    rfl

theorem packLE_eq_zero (s : Str) : packLE s = 0 ↔ ∀ b ∈ s, b = 0 := by
  induction s with
  | nil => simp [packLE]
  | cons b rest ih =>
    show b + 256 * packLE rest = 0 ↔ _
    constructor
    · intro h
      have hb : b = 0 := by omega
      have hr : packLE rest = 0 := by omega
      intro x hx
      rcases List.mem_cons.mp hx with h1 | h1
      · omega
      · exact ih.mp hr x h1
    · intro h
      have hb : b = 0 := h b (by simp)
      have hr : packLE rest = 0 := ih.mpr (fun x hx => h x (by simp [hx]))
      omega

set_option maxRecDepth 4096 in
theorem byte_land128 : ∀ b < 256, b &&& 128 = if 128 ≤ b then 128 else 0 := by decide

theorem nonascii_check (s : Str) (hb : ∀ b ∈ s, b < 256) :
    (packLE s &&& maskBytes s.length ≠ 0) ↔ ∃ b ∈ s, 128 ≤ b := by
  rw [packLE_land_mask s hb, Ne, packLE_eq_zero]
  constructor
  · intro h
    by_contra hno
    push_neg at hno
    apply h
    intro x hx
    rcases List.mem_map.mp hx with ⟨b, hbm, rfl⟩
    rw [byte_land128 b (hb b hbm)]
    have := hno b hbm
    rw [if_neg (by omega)]
  · rintro ⟨b, hbm, h128⟩ hall
    have := hall (b &&& 128) (List.mem_map_of_mem _ hbm)
    rw [byte_land128 b (hb b hbm), if_pos h128] at this
    omega

theorem packLE_le_maskBytes (s : Str) (hb : ∀ b ∈ s, b < 128) :
    packLE s ≤ maskBytes s.length := by
  induction s with
  | nil => simp [packLE]
  | cons b rest ih =>
    have hb0 : b < 128 := hb b (by simp)
    have hr := ih (fun x hx => hb x (by simp [hx]))
    show b + 256 * packLE rest ≤ 128 + 256 * maskBytes rest.length
    omega

theorem mask_sub_packLE (s : Str) (hb : ∀ b ∈ s, b < 128) :
    maskBytes s.length - packLE s = packLE (s.map (fun b => 128 - b)) := by
  induction s with
  | nil => rfl
  | cons b rest ih =>
    have hb0 : b < 128 := hb b (by simp)
    have hr := ih (fun x hx => hb x (by simp [hx]))
    have hle := packLE_le_maskBytes rest (fun x hx => hb x (by simp [hx]))
    show 128 + 256 * maskBytes rest.length - (b + 256 * packLE rest) = _
    have : 128 + 256 * maskBytes rest.length - (b + 256 * packLE rest) =
        (128 - b) + 256 * (maskBytes rest.length - packLE rest) := by omega
    rw [this, hr]
    rfl

set_option maxRecDepth 4096 in
theorem byte_sub_land128 : ∀ b < 128, (128 - b) &&& 128 = if b = 0 then 128 else 0 := by decide

theorem null_check (s : Str) (hb : ∀ b ∈ s, b < 128) :
    ((maskBytes s.length - packLE s) &&& maskBytes s.length ≠ 0) ↔ ∃ b ∈ s, b = 0 := by
  rw [mask_sub_packLE s hb]
  have hlen : maskBytes s.length = maskBytes (s.map (fun b => 128 - b)).length := by
    rw [List.length_map]
  rw [hlen, packLE_land_mask _ (by
    intro x hx
    rcases List.mem_map.mp hx with ⟨b, hbm, rfl⟩
    have := hb b hbm
    omega)]
  rw [Ne, packLE_eq_zero]
  constructor
  · intro h
    by_contra hno
    push_neg at hno
    apply h
    intro x hx
    rcases List.mem_map.mp hx with ⟨y, hym, rfl⟩
    rcases List.mem_map.mp hym with ⟨b, hbm, rfl⟩
    rw [byte_sub_land128 b (hb b hbm)]
    have hz := hno b hbm
    simp [hz]
  · rintro ⟨b, hbm, rfl⟩ hall
    have := hall ((128 - 0) &&& 128)
      (List.mem_map_of_mem _ (List.mem_map_of_mem _ hbm))
    rw [byte_sub_land128 0 (by omega)] at this
    simp at this

theorem log2_add_mul (b w : Nat) (hb : b < 256) (hw : 0 < w) :
    Nat.log2 (b + 256 * w) = Nat.log2 w + 8 := by
  have hne : b + 256 * w ≠ 0 := by omega
  have hwne : w ≠ 0 := by omega
  apply Nat.le_antisymm
  · have hpow : (256 : Nat) * 2 ^ (Nat.log2 w + 1) = 2 ^ (Nat.log2 w + 9) := by
      rw [show (256 : Nat) = 2 ^ 8 from rfl, ← pow_add]
      congr 1
      omega
    have h1 : w < 2 ^ (Nat.log2 w + 1) := Nat.lt_log2_self
    have h2 : 256 * (w + 1) ≤ 256 * 2 ^ (Nat.log2 w + 1) :=
      Nat.mul_le_mul_left 256 (by omega)
    have hlt : b + 256 * w < 2 ^ (Nat.log2 w + 9) := by omega
    have := (Nat.log2_lt hne).mpr hlt
    omega
  · have h1 : 2 ^ Nat.log2 w ≤ w := Nat.log2_self_le hwne
    have hpow : 2 ^ (Nat.log2 w + 8) = 256 * 2 ^ Nat.log2 w := by
      rw [pow_add]
      ring
    have h2 : 256 * 2 ^ Nat.log2 w ≤ 256 * w := Nat.mul_le_mul_left 256 h1
    exact (Nat.le_log2 hne).mpr (by omega)

theorem byteLen_packLE (s : Str) (hb : ∀ b ∈ s, 0 < b ∧ b < 256) :
    byteLen (packLE s) = s.length := by
  induction s with
  | nil => rfl
  | cons b rest ih =>
    have hb0 := hb b (by simp)
    cases rest with
    | nil =>
      show byteLen (b + 256 * packLE []) = 1
      have he : b + 256 * packLE [] = b := by
        show b + 256 * 0 = b
        ring
      rw [he]
      unfold byteLen
      rw [if_neg (by omega)]
      have hlog : Nat.log2 b < 8 := (Nat.log2_lt (by omega)).mpr (by omega)
      have := Nat.div_eq_of_lt hlog
      omega
    | cons c rest2 =>
      have hc := hb c (by simp)
      have hw : 0 < packLE (c :: rest2) := by
        show 0 < c + 256 * packLE rest2
        omega
      have ihh := ih (fun x hx => hb x (by simp [hx]))
      show byteLen (b + 256 * packLE (c :: rest2)) = (c :: rest2).length + 1
      unfold byteLen
      rw [if_neg (by omega)]
      rw [log2_add_mul b _ hb0.2 hw]
      unfold byteLen at ihh
      rw [if_neg (by omega)] at ihh
      omega

theorem unpackLE_packLE (s : Str) (hb : ∀ b ∈ s, b < 256) :
    unpackLE (packLE s) s.length = s := by
  induction s with
  | nil => rfl
  | cons b rest ih =>
    show unpackLE (b + 256 * packLE rest) (rest.length + 1) = b :: rest
    unfold unpackLE
    have hb0 := hb b (by simp)
    have h1 : (b + 256 * packLE rest) % 256 = b := by omega
    have h2 : (b + 256 * packLE rest) / 256 = packLE rest := by omega
    rw [h1, h2, ih (fun x hx => hb x (by simp [hx]))]

theorem tinyAsStr_packLE (s : Str) (hb : ∀ b ∈ s, 0 < b ∧ b < 256) :
    tinyAsStr (packLE s) = s := by
  unfold tinyAsStr
  rw [byteLen_packLE s hb, unpackLE_packLE s (fun x hx => (hb x hx).2)]

set_option maxRecDepth 8192 in
theorem shiftMask8 : ∀ len, len ≤ 8 →
    0x8080808080808080 >>> (8 * (8 - len)) = maskBytes len := by decide

theorem tinyStr8New_spec (text : Str) (hb : ∀ b ∈ text, b < 256) :
    tinyStr8New text =
      if text.length < 1 ∨ text.length > 8 then .error .invalidSize
      else if ∃ b ∈ text, 128 ≤ b then .error .nonAscii
      else if ∃ b ∈ text, b = 0 then .error .invalidNull
      else .ok (packLE text) := by
  unfold tinyStr8New
  by_cases hsz : text.length < 1 ∨ text.length > 8
  · rw [if_pos hsz, if_pos hsz]
  · rw [if_neg hsz, if_neg hsz]
    have hlen : text.length ≤ 8 := by omega
    rw [shiftMask8 text.length hlen]
    by_cases hna : ∃ b ∈ text, 128 ≤ b
    · rw [if_pos ((nonascii_check text hb).mpr hna), if_pos hna]
    · rw [if_neg (fun hcon => hna ((nonascii_check text hb).mp hcon)), if_neg hna]
      have hlt128 : ∀ b ∈ text, b < 128 := by
        intro b hbm
        by_contra hge
        exact hna ⟨b, hbm, by omega⟩
      by_cases hz : ∃ b ∈ text, b = 0
      · rw [if_pos ((null_check text hlt128).mpr hz), if_pos hz]
      · rw [if_neg (fun hcon => hz ((null_check text hlt128).mp hcon)), if_neg hz]

theorem make4ByteStr_spec (text : Str) (hb : ∀ b ∈ text, b < 256) :
    make4ByteStr text (maskBytes text.length) =
      if ∃ b ∈ text, 128 ≤ b then .error .nonAscii
      else if ∃ b ∈ text, b = 0 then .error .invalidNull
      else .ok (packLE text) := by
  unfold make4ByteStr
  by_cases hna : ∃ b ∈ text, 128 ≤ b
  · rw [if_pos ((nonascii_check text hb).mpr hna), if_pos hna]
  · rw [if_neg (fun hcon => hna ((nonascii_check text hb).mp hcon)), if_neg hna]
    have hlt128 : ∀ b ∈ text, b < 128 := by
      intro b hbm
      by_contra hge
      exact hna ⟨b, hbm, by omega⟩
    by_cases hz : ∃ b ∈ text, b = 0
    · rw [if_pos ((null_check text hlt128).mpr hz), if_pos hz]
    · rw [if_neg (fun hcon => hz ((null_check text hlt128).mp hcon)), if_neg hz]

theorem tinyStr4New_spec (text : Str) (hb : ∀ b ∈ text, b < 256) :
    tinyStr4New text =
      if text.length < 1 ∨ text.length > 4 then .error .invalidSize
      else if ∃ b ∈ text, 128 ≤ b then .error .nonAscii
      else if ∃ b ∈ text, b = 0 then .error .invalidNull
      else .ok (packLE text) := by
  unfold tinyStr4New
  split
  · rename_i h1
    rw [if_neg (by omega)]
    nth_rewrite 1 [show (0x80 : Nat) = maskBytes text.length from by rw [h1]; rfl]
    exact make4ByteStr_spec text hb
  · rename_i h2
    rw [if_neg (by omega)]
    nth_rewrite 1 [show (0x8080 : Nat) = maskBytes text.length from by rw [h2]; rfl]
    exact make4ByteStr_spec text hb
  · rename_i h3
    rw [if_neg (by omega)]
    nth_rewrite 1 [show (0x808080 : Nat) = maskBytes text.length from by rw [h3]; rfl]
    exact make4ByteStr_spec text hb
  · rename_i h4
    rw [if_neg (by omega)]
    nth_rewrite 1 [show (0x80808080 : Nat) = maskBytes text.length from by rw [h4]; rfl]
    exact make4ByteStr_spec text hb
  · rename_i h1 h2 h3 h4
    have hlen : List.length text < 1 ∨ List.length text > 4 := by
      rcases hL : List.length text with _ | _ | _ | _ | _ | n
      · omega
      · exact absurd hL h1
      · exact absurd hL h2
      · exact absurd hL h3
      · exact absurd hL h4
      · omega
    rw [if_pos hlen]

/-- C8: the tiny-string constructors return `InvalidSize` exactly on the
empty string or one longer than the capacity (8 or 4 bytes), `NonAscii`
exactly when a well-sized input contains a byte ≥ 0x80, `InvalidNull`
exactly when a well-sized all-ASCII input contains a NUL byte; on every
other ASCII input of length 1 up to the capacity they succeed and `as_str`
returns the original text. -/
theorem c8_tinystr_new (text : Str) (hb : ∀ b ∈ text, b < 256) :
    (tinyStr8New text = .error .invalidSize ↔ (text.length < 1 ∨ text.length > 8)) ∧
    (tinyStr8New text = .error .nonAscii ↔
      (1 ≤ text.length ∧ text.length ≤ 8 ∧ ∃ b ∈ text, 128 ≤ b)) ∧
    (tinyStr8New text = .error .invalidNull ↔
      (1 ≤ text.length ∧ text.length ≤ 8 ∧ (∀ b ∈ text, b < 128) ∧ ∃ b ∈ text, b = 0)) ∧
    ((1 ≤ text.length ∧ text.length ≤ 8 ∧ ∀ b ∈ text, 0 < b ∧ b < 128) →
      tinyStr8New text = .ok (packLE text) ∧ tinyAsStr (packLE text) = text) ∧
    (tinyStr4New text = .error .invalidSize ↔ (text.length < 1 ∨ text.length > 4)) ∧
    (tinyStr4New text = .error .nonAscii ↔
      (1 ≤ text.length ∧ text.length ≤ 4 ∧ ∃ b ∈ text, 128 ≤ b)) ∧
    (tinyStr4New text = .error .invalidNull ↔
      (1 ≤ text.length ∧ text.length ≤ 4 ∧ (∀ b ∈ text, b < 128) ∧ ∃ b ∈ text, b = 0)) ∧
    ((1 ≤ text.length ∧ text.length ≤ 4 ∧ ∀ b ∈ text, 0 < b ∧ b < 128) →
      tinyStr4New text = .ok (packLE text) ∧ tinyAsStr (packLE text) = text) := by
  rw [tinyStr8New_spec text hb, tinyStr4New_spec text hb]
  refine ⟨?_, ?_, ?_, ?_, ?_, ?_, ?_, ?_⟩
  · constructor
    · intro h
      split_ifs at h with h1 h2 h3
      · exact h1
      · exact absurd h (by simp)
      · exact absurd h (by simp)
    · intro h1
      rw [if_pos h1]
  · constructor
    · intro h
      split_ifs at h with h1 h2 h3
      · exact absurd h (by simp)
      · exact ⟨by omega, by omega, h2⟩
      · exact absurd h (by simp)
    · rintro ⟨hl, hr, hex⟩
      rw [if_neg (by omega), if_pos hex]
  · constructor
    · intro h
      split_ifs at h with h1 h2 h3
      · exact absurd h (by simp)
      · exact absurd h (by simp)
      · refine ⟨by omega, by omega, ?_, h3⟩
        intro b hbm
        by_contra hge
        exact h2 ⟨b, hbm, by omega⟩
    · rintro ⟨hl, hr, hall, hex⟩
      rw [if_neg (by omega), if_neg ?_, if_pos hex]
      rintro ⟨b, hbm, h128⟩
      have := hall b hbm
      omega
  · rintro ⟨hl, hr, hall⟩
    rw [if_neg (by omega), if_neg ?_, if_neg ?_]
    · exact ⟨rfl, tinyAsStr_packLE text
        (fun b hbm => ⟨(hall b hbm).1, by have := (hall b hbm).2; omega⟩)⟩
    · rintro ⟨b, hbm, h128⟩
      have := hall b hbm
      omega
    · rintro ⟨b, hbm, hz0⟩
      have := hall b hbm
      omega
  · constructor
    · intro h
      split_ifs at h with h1 h2 h3
      · exact h1
      · exact absurd h (by simp)
      · exact absurd h (by simp)
    · intro h1
      rw [if_pos h1]
  · constructor
    · intro h
      split_ifs at h with h1 h2 h3
      · exact absurd h (by simp)
      · exact ⟨by omega, by omega, h2⟩
      · exact absurd h (by simp)
    · rintro ⟨hl, hr, hex⟩
      rw [if_neg (by omega), if_pos hex]
  · constructor
    · intro h
      split_ifs at h with h1 h2 h3
      · exact absurd h (by simp)
      · exact absurd h (by simp)
      · refine ⟨by omega, by omega, ?_, h3⟩
        intro b hbm
        by_contra hge
        exact h2 ⟨b, hbm, by omega⟩
    · rintro ⟨hl, hr, hall, hex⟩
      rw [if_neg (by omega), if_neg ?_, if_pos hex]
      rintro ⟨b, hbm, h128⟩
      have := hall b hbm
      omega
  · rintro ⟨hl, hr, hall⟩
    rw [if_neg (by omega), if_neg ?_, if_neg ?_]
    · exact ⟨rfl, tinyAsStr_packLE text
        (fun b hbm => ⟨(hall b hbm).1, by have := (hall b hbm).2; omega⟩)⟩
    · rintro ⟨b, hbm, h128⟩
      have := hall b hbm
      omega
    · rintro ⟨b, hbm, hz0⟩
      have := hall b hbm
      omega


/-- C8 witness: the success case at the concrete input "abc". -/
theorem c8_tinystr_new_witness :
    (∀ b ∈ strBytes "abc", b < 256) ∧
    (tinyStr8New (strBytes "abc") = .ok (packLE (strBytes "abc")) ∧
      tinyAsStr (packLE (strBytes "abc")) = strBytes "abc") :=
  ⟨by decide, (c8_tinystr_new (strBytes "abc") (by decide)).2.2.2.1 (by decide)⟩


theorem lor_block (b c w m : Nat) (hb : b < 256) (hc : c < 256) :
    (b + 256 * w) ||| (c + 256 * m) = (b ||| c) + 256 * (w ||| m) := by
  have hbc : b ||| c < 256 := Nat.or_lt_two_pow (show b < 2 ^ 8 from hb) (show c < 2 ^ 8 from hc)
  apply Nat.eq_of_testBit_eq
  intro i
  have e1 : b + 256 * w = 2 ^ 8 * w + b := by ring
  have e2 : c + 256 * m = 2 ^ 8 * m + c := by ring
  have e3 : (b ||| c) + 256 * (w ||| m) = 2 ^ 8 * (w ||| m) + (b ||| c) := by ring
  rw [e1, e2, e3, Nat.testBit_lor,
      Nat.testBit_mul_pow_two_add w (show b < 2 ^ 8 from hb) i,
      Nat.testBit_mul_pow_two_add m (show c < 2 ^ 8 from hc) i,
      Nat.testBit_mul_pow_two_add (w ||| m) (show b ||| c < 2 ^ 8 from hbc) i]
  by_cases hi : i < 8
  · simp [hi, Nat.testBit_lor]
  · simp [hi, Nat.testBit_lor]

theorem xor_block (b c w m : Nat) (hb : b < 256) (hc : c < 256) :
    (b + 256 * w) ^^^ (c + 256 * m) = (b ^^^ c) + 256 * (w ^^^ m) := by
  have hbc : b ^^^ c < 256 := Nat.xor_lt_two_pow (show b < 2 ^ 8 from hb) (show c < 2 ^ 8 from hc)
  apply Nat.eq_of_testBit_eq
  intro i
  have e1 : b + 256 * w = 2 ^ 8 * w + b := by ring
  have e2 : c + 256 * m = 2 ^ 8 * m + c := by ring
  have e3 : (b ^^^ c) + 256 * (w ^^^ m) = 2 ^ 8 * (w ^^^ m) + (b ^^^ c) := by ring
  rw [e1, e2, e3, Nat.testBit_xor,
      Nat.testBit_mul_pow_two_add w (show b < 2 ^ 8 from hb) i,
      Nat.testBit_mul_pow_two_add m (show c < 2 ^ 8 from hc) i,
      Nat.testBit_mul_pow_two_add (w ^^^ m) (show b ^^^ c < 2 ^ 8 from hbc) i]
  by_cases hi : i < 8
  · simp [hi, Nat.testBit_xor]
  · simp [hi, Nat.testBit_xor]

theorem land_pack4 (a0 a1 a2 a3 c0 c1 c2 c3 : Nat)
    (h0 : a0 < 256) (h1 : a1 < 256) (h2 : a2 < 256)
    (g0 : c0 < 256) (g1 : c1 < 256) (g2 : c2 < 256) :
    packLE [a0, a1, a2, a3] &&& packLE [c0, c1, c2, c3] =
      packLE [a0 &&& c0, a1 &&& c1, a2 &&& c2, a3 &&& c3] := by
  show (a0 + 256 * (a1 + 256 * (a2 + 256 * (a3 + 256 * 0)))) &&&
      (c0 + 256 * (c1 + 256 * (c2 + 256 * (c3 + 256 * 0)))) = _
  rw [land_block a0 c0 _ _ h0 g0, land_block a1 c1 _ _ h1 g1, land_block a2 c2 _ _ h2 g2]
  show _ = (a0 &&& c0) + 256 * ((a1 &&& c1) + 256 * ((a2 &&& c2) + 256 * ((a3 &&& c3) + 256 * 0)))
  have : (a3 + 256 * 0) &&& (c3 + 256 * 0) = (a3 &&& c3) + 256 * 0 := by
    simp
  rw [this]

theorem lor_pack4 (a0 a1 a2 a3 c0 c1 c2 c3 : Nat)
    (h0 : a0 < 256) (h1 : a1 < 256) (h2 : a2 < 256)
    (g0 : c0 < 256) (g1 : c1 < 256) (g2 : c2 < 256) :
    packLE [a0, a1, a2, a3] ||| packLE [c0, c1, c2, c3] =
      packLE [a0 ||| c0, a1 ||| c1, a2 ||| c2, a3 ||| c3] := by
  show (a0 + 256 * (a1 + 256 * (a2 + 256 * (a3 + 256 * 0)))) |||
      (c0 + 256 * (c1 + 256 * (c2 + 256 * (c3 + 256 * 0)))) = _
  rw [lor_block a0 c0 _ _ h0 g0, lor_block a1 c1 _ _ h1 g1, lor_block a2 c2 _ _ h2 g2]
  show _ = (a0 ||| c0) + 256 * ((a1 ||| c1) + 256 * ((a2 ||| c2) + 256 * ((a3 ||| c3) + 256 * 0)))
  have : (a3 + 256 * 0) ||| (c3 + 256 * 0) = (a3 ||| c3) + 256 * 0 := by
    simp
  rw [this]

theorem xor_pack4 (a0 a1 a2 a3 c0 c1 c2 c3 : Nat)
    (h0 : a0 < 256) (h1 : a1 < 256) (h2 : a2 < 256)
    (g0 : c0 < 256) (g1 : c1 < 256) (g2 : c2 < 256) :
    packLE [a0, a1, a2, a3] ^^^ packLE [c0, c1, c2, c3] =
      packLE [a0 ^^^ c0, a1 ^^^ c1, a2 ^^^ c2, a3 ^^^ c3] := by
  show (a0 + 256 * (a1 + 256 * (a2 + 256 * (a3 + 256 * 0)))) ^^^
      (c0 + 256 * (c1 + 256 * (c2 + 256 * (c3 + 256 * 0)))) = _
  rw [xor_block a0 c0 _ _ h0 g0, xor_block a1 c1 _ _ h1 g1, xor_block a2 c2 _ _ h2 g2]
  show _ = (a0 ^^^ c0) + 256 * ((a1 ^^^ c1) + 256 * ((a2 ^^^ c2) + 256 * ((a3 ^^^ c3) + 256 * 0)))
  have : (a3 + 256 * 0) ^^^ (c3 + 256 * 0) = (a3 ^^^ c3) + 256 * 0 := by
    simp
  rw [this]

theorem add_pack4 (a0 a1 a2 a3 c0 c1 c2 c3 : Nat) :
    packLE [a0, a1, a2, a3] + packLE [c0, c1, c2, c3] =
      packLE [a0 + c0, a1 + c1, a2 + c2, a3 + c3] := by
  simp [packLE]
  ring

theorem pack4_lt (a0 a1 a2 a3 : Nat)
    (h0 : a0 < 256) (h1 : a1 < 256) (h2 : a2 < 256) (h3 : a3 < 256) :
    packLE [a0, a1, a2, a3] < 2 ^ 32 := by
  simp [packLE]
  omega

theorem div4_pack4 (a0 a1 a2 a3 : Nat)
    (h0 : 4 ∣ a0) (h1 : 4 ∣ a1) (h2 : 4 ∣ a2) (h3 : 4 ∣ a3) :
    packLE [a0, a1, a2, a3] / 4 = packLE [a0 / 4, a1 / 4, a2 / 4, a3 / 4] := by
  simp [packLE]
  omega

theorem dvd4_and128 (x : Nat) : 4 ∣ (x &&& 128) := by
  have h := Nat.and_two_pow x 7
  rw [show (128 : Nat) = 2 ^ 7 from rfl, h]
  cases x.testBit 7
  · simp
  · norm_num

theorem and128_le (x : Nat) : x &&& 128 ≤ 128 := Nat.and_le_right

set_option maxRecDepth 8192 in
theorem tbyteFull0 : ∀ b < 128,
    (b ||| ((b + 0x1f) &&& (255 ^^^ (b + 0x05)) &&& 128) / 4) &&&
      (255 ^^^ (32 &&& ((b + 0x1f) &&& (255 ^^^ (b + 0x05)) &&& 128) / 4)) = toUpperByte b := by
  decide

set_option maxRecDepth 8192 in
theorem tbyteFullR : ∀ b < 128,
    (b ||| ((b + 0x3f) &&& (255 ^^^ (b + 0x25)) &&& 128) / 4) &&& 255 = toLowerByte b := by
  decide

theorem titlecase_pack4 (b0 b1 b2 b3 : Nat)
    (h0 : b0 < 128) (h1 : b1 < 128) (h2 : b2 < 128) (h3 : b3 < 128) :
    tinyStr4Titlecase (packLE [b0, b1, b2, b3]) =
      packLE [toUpperByte b0, toLowerByte b1, toLowerByte b2, toLowerByte b3] := by
  unfold tinyStr4Titlecase
  have hw : packLE [b0, b1, b2, b3] + 0x3f3f3f1f =
      packLE [b0 + 0x1f, b1 + 0x3f, b2 + 0x3f, b3 + 0x3f] := by
    rw [show (0x3f3f3f1f : Nat) = packLE [0x1f, 0x3f, 0x3f, 0x3f] from rfl,
        add_pack4]
  have hwlt : packLE [b0 + 0x1f, b1 + 0x3f, b2 + 0x3f, b3 + 0x3f] < 2 ^ 32 :=
    pack4_lt _ _ _ _ (by omega) (by omega) (by omega) (by omega)
  have hv : packLE [b0, b1, b2, b3] + 0x25252505 =
      packLE [b0 + 0x05, b1 + 0x25, b2 + 0x25, b3 + 0x25] := by
    rw [show (0x25252505 : Nat) = packLE [0x05, 0x25, 0x25, 0x25] from rfl,
        add_pack4]
  have hvlt : packLE [b0 + 0x05, b1 + 0x25, b2 + 0x25, b3 + 0x25] < 2 ^ 32 :=
    pack4_lt _ _ _ _ (by omega) (by omega) (by omega) (by omega)
  rw [hw, Nat.mod_eq_of_lt hwlt, hv, Nat.mod_eq_of_lt hvlt]
  rw [show (2 ^ 32 - 1 : Nat) = packLE [255, 255, 255, 255] from rfl]
  rw [xor_pack4 _ _ _ _ _ _ _ _ (by omega) (by omega) (by omega)
        (by omega) (by omega) (by omega)]
  rw [land_pack4 _ _ _ _ _ _ _ _ (by omega) (by omega) (by omega)
        (Nat.xor_lt_two_pow (show (255 : Nat) < 2 ^ 8 by omega) (show b0 + 0x05 < 2 ^ 8 by omega))
        (Nat.xor_lt_two_pow (show (255 : Nat) < 2 ^ 8 by omega) (show b1 + 0x25 < 2 ^ 8 by omega))
        (Nat.xor_lt_two_pow (show (255 : Nat) < 2 ^ 8 by omega) (show b2 + 0x25 < 2 ^ 8 by omega))]
  rw [show (0x80808080 : Nat) = packLE [128, 128, 128, 128] from rfl]
  rw [land_pack4 _ _ _ _ _ _ _ _
        (Nat.and_lt_two_pow _ (Nat.xor_lt_two_pow (show (255 : Nat) < 2 ^ 8 by omega)
          (show b0 + 0x05 < 2 ^ 8 by omega)))
        (Nat.and_lt_two_pow _ (Nat.xor_lt_two_pow (show (255 : Nat) < 2 ^ 8 by omega)
          (show b1 + 0x25 < 2 ^ 8 by omega)))
        (Nat.and_lt_two_pow _ (Nat.xor_lt_two_pow (show (255 : Nat) < 2 ^ 8 by omega)
          (show b2 + 0x25 < 2 ^ 8 by omega)))
        (by omega) (by omega) (by omega)]
  rw [Nat.shiftRight_eq_div_pow]
  rw [show (2 ^ 2 : Nat) = 4 from rfl]
  rw [div4_pack4 _ _ _ _ (dvd4_and128 _) (dvd4_and128 _) (dvd4_and128 _) (dvd4_and128 _)]
  dsimp only
  have hm0 : ((b0 + 0x1f) &&& (255 ^^^ (b0 + 0x05)) &&& 128) / 4 ≤ 32 := by
    have := and128_le ((b0 + 0x1f) &&& (255 ^^^ (b0 + 0x05)))
    omega
  have hm1 : ((b1 + 0x3f) &&& (255 ^^^ (b1 + 0x25)) &&& 128) / 4 ≤ 32 := by
    have := and128_le ((b1 + 0x3f) &&& (255 ^^^ (b1 + 0x25)))
    omega
  have hm2 : ((b2 + 0x3f) &&& (255 ^^^ (b2 + 0x25)) &&& 128) / 4 ≤ 32 := by
    have := and128_le ((b2 + 0x3f) &&& (255 ^^^ (b2 + 0x25)))
    omega
  rw [lor_pack4 _ _ _ _ _ _ _ _ (by omega) (by omega) (by omega)
        (by omega) (by omega) (by omega)]
  rw [show (0x20 : Nat) = packLE [32, 0, 0, 0] from rfl]
  rw [land_pack4 _ _ _ _ _ _ _ _ (by omega) (by omega) (by omega)
        (by omega) (by omega) (by omega)]
  simp only [Nat.zero_and]
  have hb0m : (b0 + 31 &&& (255 ^^^ b0 + 5) &&& 128) / 4 < 256 := by
    have := and128_le (b0 + 31 &&& (255 ^^^ b0 + 5))
    omega
  have hb1m : (b1 + 63 &&& (255 ^^^ b1 + 37) &&& 128) / 4 < 256 := by
    have := and128_le (b1 + 63 &&& (255 ^^^ b1 + 37))
    omega
  have hb2m : (b2 + 63 &&& (255 ^^^ b2 + 37) &&& 128) / 4 < 256 := by
    have := and128_le (b2 + 63 &&& (255 ^^^ b2 + 37))
    omega
  have h32 : (32 : Nat) &&& (b0 + 31 &&& (255 ^^^ b0 + 5) &&& 128) / 4 < 256 :=
    lt_of_le_of_lt Nat.and_le_left (by omega)
  rw [xor_pack4 _ _ _ _ _ _ _ _ (by omega) (by omega) (by omega) h32 (by omega) (by omega)]
  simp only [Nat.xor_zero]
  rw [land_pack4 _ _ _ _ _ _ _ _
        (Nat.or_lt_two_pow (show b0 < 2 ^ 8 by omega) hb0m)
        (Nat.or_lt_two_pow (show b1 < 2 ^ 8 by omega) hb1m)
        (Nat.or_lt_two_pow (show b2 < 2 ^ 8 by omega) hb2m)
        (Nat.xor_lt_two_pow (show (255 : Nat) < 2 ^ 8 by omega) h32)
        (by omega) (by omega)]
  rw [tbyteFull0 b0 h0, tbyteFullR b1 h1, tbyteFullR b2 h2, tbyteFullR b3 h3]

theorem toUpperByte_bounds (b : Nat) (h : 0 < b) (h2 : b < 128) :
    0 < toUpperByte b ∧ toUpperByte b < 256 := by
  unfold toUpperByte
  split
  · rename_i hc
    simp at hc
    omega
  · omega

theorem toLowerByte_bounds (b : Nat) (h : 0 < b) (h2 : b < 128) :
    0 < toLowerByte b ∧ toLowerByte b < 256 := by
  unfold toLowerByte
  split
  · rename_i hc
    simp at hc
    omega
  · omega

/-- C9: for every valid `TinyStr4` value (one produced by `TinyStr4::new`),
`to_ascii_titlecase`, computed by the bitwise arithmetic over the packed
word, equals the string obtained by ASCII-uppercasing the first byte and
ASCII-lowercasing every remaining byte (non-letter bytes unchanged). -/
theorem c9_titlecase (text : Str) (w : Nat) (hb : ∀ b ∈ text, b < 256)
    (hok : tinyStr4New text = .ok w) :
    tinyAsStr (tinyStr4Titlecase w) = upperFirstLowerRest text := by
  rw [tinyStr4New_spec text hb] at hok
  split_ifs at hok with h1 h2 h3
  have hw : w = packLE text := by
    injection hok with h
    exact h.symm
  subst hw
  push_neg at h1 h2 h3
  have hbyte : ∀ b ∈ text, 0 < b ∧ b < 128 := by
    intro b hbm
    have hz := h3 b hbm
    have hh := h2 b hbm
    omega
  rcases text with _ | ⟨a0, _ | ⟨a1, _ | ⟨a2, _ | ⟨a3, _ | ⟨a4, rest⟩⟩⟩⟩⟩
  · simp at h1
  · have ha0 := hbyte a0 (by simp)
    have hpe : packLE [a0] = packLE [a0, 0, 0, 0] := by simp [packLE]
    rw [hpe, titlecase_pack4 a0 0 0 0 ha0.2 (by omega) (by omega) (by omega)]
    have hred : packLE [toUpperByte a0, toLowerByte 0, toLowerByte 0, toLowerByte 0] =
        packLE [toUpperByte a0] := by
      simp [packLE, toLowerByte]
    rw [hred, tinyAsStr_packLE [toUpperByte a0]
      (by
        intro b hbm
        rcases List.mem_singleton.mp hbm with rfl
        exact toUpperByte_bounds a0 ha0.1 ha0.2)]
    rfl
  · have ha0 := hbyte a0 (by simp)
    have ha1 := hbyte a1 (by simp)
    have hpe : packLE [a0, a1] = packLE [a0, a1, 0, 0] := by simp [packLE]
    rw [hpe, titlecase_pack4 a0 a1 0 0 ha0.2 ha1.2 (by omega) (by omega)]
    have hred : packLE [toUpperByte a0, toLowerByte a1, toLowerByte 0, toLowerByte 0] =
        packLE [toUpperByte a0, toLowerByte a1] := by
      simp [packLE, toLowerByte]
    rw [hred, tinyAsStr_packLE [toUpperByte a0, toLowerByte a1]
      (by
        intro b hbm
        rcases List.mem_cons.mp hbm with rfl | hbm2
        · exact toUpperByte_bounds a0 ha0.1 ha0.2
        rcases List.mem_singleton.mp hbm2 with rfl
        exact toLowerByte_bounds a1 ha1.1 ha1.2)]
    rfl
  · have ha0 := hbyte a0 (by simp)
    have ha1 := hbyte a1 (by simp)
    have ha2 := hbyte a2 (by simp)
    have hpe : packLE [a0, a1, a2] = packLE [a0, a1, a2, 0] := by simp [packLE]
    rw [hpe, titlecase_pack4 a0 a1 a2 0 ha0.2 ha1.2 ha2.2 (by omega)]
    have hred : packLE [toUpperByte a0, toLowerByte a1, toLowerByte a2, toLowerByte 0] =
        packLE [toUpperByte a0, toLowerByte a1, toLowerByte a2] := by
      simp [packLE, toLowerByte]
    rw [hred, tinyAsStr_packLE [toUpperByte a0, toLowerByte a1, toLowerByte a2]
      (by
        intro b hbm
        rcases List.mem_cons.mp hbm with rfl | hbm2
        · exact toUpperByte_bounds a0 ha0.1 ha0.2
        rcases List.mem_cons.mp hbm2 with rfl | hbm3
        · exact toLowerByte_bounds a1 ha1.1 ha1.2
        rcases List.mem_singleton.mp hbm3 with rfl
        exact toLowerByte_bounds a2 ha2.1 ha2.2)]
    rfl
  · have ha0 := hbyte a0 (by simp)
    have ha1 := hbyte a1 (by simp)
    have ha2 := hbyte a2 (by simp)
    have ha3 := hbyte a3 (by simp)
    rw [titlecase_pack4 a0 a1 a2 a3 ha0.2 ha1.2 ha2.2 ha3.2]
    rw [tinyAsStr_packLE [toUpperByte a0, toLowerByte a1, toLowerByte a2, toLowerByte a3]
      (by
        intro b hbm
        rcases List.mem_cons.mp hbm with rfl | hbm2
        · exact toUpperByte_bounds a0 ha0.1 ha0.2
        rcases List.mem_cons.mp hbm2 with rfl | hbm3
        · exact toLowerByte_bounds a1 ha1.1 ha1.2
        rcases List.mem_cons.mp hbm3 with rfl | hbm4
        · exact toLowerByte_bounds a2 ha2.1 ha2.2
        rcases List.mem_singleton.mp hbm4 with rfl
        exact toLowerByte_bounds a3 ha3.1 ha3.2)]
    rfl
  · simp at h1

theorem c9_titlecase_witness :
    (∀ b ∈ strBytes "aBcD", b < 256) ∧
    tinyStr4New (strBytes "aBcD") = .ok 1147355745 ∧
    tinyAsStr (tinyStr4Titlecase 1147355745) = upperFirstLowerRest (strBytes "aBcD") :=
  ⟨by decide, rfl,
    c9_titlecase (strBytes "aBcD") 1147355745 (by decide) rfl⟩



/-- C2 counterexample: "en-x-aa" parses, but its rendering drops the
private-use subtags, so reparsing the rendering yields a different locale. -/
theorem c2_counterexample :
    ∃ L L' : Locale,
      parseLanguageTag (strBytes "en-x-aa") = .ok L ∧
      localeToString L = some (strBytes "en-x") ∧
      parseLanguageTag (strBytes "en-x") = .ok L' ∧
      L' ≠ L :=
  ⟨⟨some (strBytes "en"), none, none, none, none, some [(strBytes "x", [])], [strBytes "aa"]⟩,
   ⟨some (strBytes "en"), none, none, none, none, some [(strBytes "x", [])], []⟩,
   rfl, rfl, rfl, by decide⟩

theorem lower_of_alpha (b : Nat) (h : isAsciiAlpha b = true) :
    isLowerAlpha (toLowerByte b) = true := by
  simp [isAsciiAlpha] at h
  unfold toLowerByte isLowerAlpha
  split
  · rename_i hc
    simp at hc ⊢
    omega
  · rename_i hc
    simp at hc ⊢
    omega

theorem upper_of_lower (b : Nat) (h : isLowerAlpha b = true) :
    isUpperAlpha (toUpperByte b) = true := by
  simp [isLowerAlpha] at h
  unfold toUpperByte isUpperAlpha
  split
  · rename_i hc
    simp at hc ⊢
    omega
  · rename_i hc
    simp at hc ⊢
    omega

theorem upper_of_alpha (b : Nat) (h : isAsciiAlpha b = true) :
    isUpperAlpha (toUpperByte b) = true := by
  simp [isAsciiAlpha] at h
  unfold toUpperByte isUpperAlpha
  split
  · rename_i hc
    simp at hc ⊢
    omega
  · rename_i hc
    simp at hc ⊢
    omega

theorem upper_of_digit (b : Nat) (h : isAsciiDigit b = true) : toUpperByte b = b := by
  simp [isAsciiDigit] at h
  unfold toUpperByte
  split
  · rename_i hc
    simp at hc
    omega
  · rfl

theorem lowerAlpha_alpha (b : Nat) (h : isLowerAlpha b = true) : isAsciiAlpha b = true := by
  simp [isLowerAlpha] at h
  simp [isAsciiAlpha]
  omega

theorem upperAlpha_alpha (b : Nat) (h : isUpperAlpha b = true) : isAsciiAlpha b = true := by
  simp [isUpperAlpha] at h
  simp [isAsciiAlpha]
  omega

theorem alpha_plain (b : Nat) (h : isAsciiAlpha b = true) : isPlainByte b = true := by
  simp [isAsciiAlpha] at h
  simp [isPlainByte, isTagSep]
  omega

theorem digit_plain (b : Nat) (h : isAsciiDigit b = true) : isPlainByte b = true := by
  simp [isAsciiDigit] at h
  simp [isPlainByte, isTagSep]
  omega

theorem plain_lt (b : Nat) (h : isPlainByte b = true) : b < 128 := by
  simp [isPlainByte] at h
  exact h.1

/-- Every byte of every piece of `splitTags t` is a non-separator byte of `t`. -/
theorem splitTags_bytes (t : Str) :
    ∀ p ∈ splitTags t, ∀ b ∈ p, b ∈ t ∧ isTagSep b = false := by
  induction t with
  | nil =>
    intro p hp b hb
    simp [splitTags] at hp
    subst hp
    simp at hb
  | cons c rest ih =>
    intro p hp b hb
    unfold splitTags at hp
    by_cases hc : isTagSep c
    · rw [if_pos hc] at hp
      rcases List.mem_cons.mp hp with rfl | hp2
      · simp at hb
      · have := ih p hp2 b hb
        exact ⟨List.mem_cons_of_mem c this.1, this.2⟩
    · rw [if_neg hc] at hp
      rcases hsp : splitTags rest with _ | ⟨h0, tail⟩
      · rw [hsp] at hp
        simp at hp
        subst hp
        simp at hb
        subst hb
        exact ⟨by simp, by simpa using hc⟩
      · rw [hsp] at hp
        rcases List.mem_cons.mp hp with rfl | hp2
        · rcases List.mem_cons.mp hb with rfl | hb2
          · exact ⟨by simp, by simpa using hc⟩
          · have := ih h0 (by rw [hsp]; simp) b hb2
            exact ⟨List.mem_cons_of_mem c this.1, this.2⟩
        · have := ih p (by rw [hsp]; exact List.mem_cons_of_mem h0 hp2) b hb
          exact ⟨List.mem_cons_of_mem c this.1, this.2⟩

/-- A separator-free string splits to the single piece itself. -/
theorem splitTags_of_sepFree (p : Str) :
    (∀ b ∈ p, isTagSep b = false) → splitTags p = [p] := by
  induction p with
  | nil => intro _; simp [splitTags]
  | cons b bs ih =>
    intro hp
    conv_lhs => rw [splitTags]
    rw [if_neg (by simpa using hp b (List.mem_cons_self b bs))]
    rw [ih (fun b2 hb2 => hp b2 (List.mem_cons_of_mem b hb2))]

/-- Splitting distributes over a dash following a separator-free piece. -/
theorem splitTags_append_dash (p r : Str) :
    (∀ b ∈ p, isTagSep b = false) → splitTags (p ++ 45 :: r) = p :: splitTags r := by
  induction p with
  | nil =>
    intro _
    show splitTags (45 :: r) = [] :: splitTags r
    conv_lhs => rw [splitTags]
    rw [if_pos (by simp [isTagSep])]
  | cons b bs ih =>
    intro hp
    show splitTags (b :: (bs ++ 45 :: r)) = (b :: bs) :: splitTags r
    conv_lhs => rw [splitTags]
    rw [if_neg (by simpa using hp b (List.mem_cons_self b bs))]
    rw [ih (fun b2 hb2 => hp b2 (List.mem_cons_of_mem b hb2))]

/-- `splitTags` is a left inverse of `joinDash` on nonempty lists of
separator-free pieces. -/
theorem splitTags_joinDash (ps : List Str) (hne : ps ≠ [])
    (hsep : ∀ p ∈ ps, ∀ b ∈ p, isTagSep b = false) :
    splitTags (joinDash ps) = ps := by
  induction ps with
  | nil => exact absurd rfl hne
  | cons p rest ih =>
    rcases rest with _ | ⟨q, rest2⟩
    · show splitTags (joinDash [p]) = [p]
      exact splitTags_of_sepFree p (hsep p (List.mem_cons_self p []))
    · have hjp : joinDash (p :: q :: rest2) = p ++ 45 :: joinDash (q :: rest2) := rfl
      rw [hjp, splitTags_append_dash p _ (hsep p (List.mem_cons_self p _)),
          ih (by simp) (fun r hr b hb => hsep r (List.mem_cons_of_mem p hr) b hb)]

/-- The bytes of `joinDash ps` are dashes and bytes of the pieces. -/
theorem joinDash_bytes (ps : List Str) :
    ∀ b ∈ joinDash ps, b = 45 ∨ ∃ p ∈ ps, b ∈ p := by
  induction ps with
  | nil => intro b hb; simp [joinDash] at hb
  | cons p rest ih =>
    intro b hb
    rcases rest with _ | ⟨q, rest2⟩
    · exact Or.inr ⟨p, List.mem_cons_self p [], hb⟩
    · have hj : joinDash (p :: q :: rest2) = p ++ 45 :: joinDash (q :: rest2) := rfl
      rw [hj] at hb
      rcases List.mem_append.mp hb with hb1 | hb2
      · exact Or.inr ⟨p, List.mem_cons_self p _, hb1⟩
      · rcases List.mem_cons.mp hb2 with rfl | hb3
        · exact Or.inl rfl
        · rcases ih b hb3 with h | ⟨r, hr, hbr⟩
          · exact Or.inl h
          · exact Or.inr ⟨r, List.mem_cons_of_mem p hr, hbr⟩

theorem canonExtName_of (sub : Str) (h1 : sub.length = 1)
    (ha : sub.any (fun c => !isAsciiAlpha c) = false) :
    canonExtName (extNameForKey sub) = true := by
  rcases sub with _ | ⟨b, _ | ⟨c, rest⟩⟩
  · simp at h1
  · have hb : isAsciiAlpha b = true := by
      simp [List.any_cons] at ha
      simpa using ha
    by_cases h117 : b = 117
    · subst h117
      decide
    · have : extNameForKey [b] = [b] := by
        unfold extNameForKey
        rw [if_neg (by simpa [strBytes] using h117)]
      rw [this]
      simp [canonExtName, strBytes, hb]
      omega
  · simp at h1

theorem canonLang_lower (s : Str) (hl : s.length = 2 ∨ s.length = 3)
    (ha : ∀ b ∈ s, isAsciiAlpha b = true) : canonLang (strToLower s) = true := by
  simp [canonLang, strToLower, List.all_eq_true]
  constructor
  · omega
  · intro b hb
    exact lower_of_alpha b (ha b hb)

theorem canonScript_title (s : Str) (hl : s.length = 4)
    (ha : ∀ b ∈ s, isAsciiAlpha b = true) : canonScript (titleCaseStr s) = true := by
  rcases s with _ | ⟨b, rest⟩
  · simp at hl
  · show canonScript (toUpperByte (toLowerByte b) :: rest.map toLowerByte) = true
    have h3 : rest.length = 3 := by simpa using hl
    simp [canonScript, List.all_eq_true, h3]
    refine ⟨upper_of_lower _ (lower_of_alpha b (ha b (by simp))), ?_⟩
    intro x hx
    exact lower_of_alpha x (ha x (List.mem_cons_of_mem b hx))

theorem canonRegion_upper (s : Str)
    (hg : (s.length = 2 ∧ ∀ b ∈ s, isAsciiAlpha b = true) ∨
          (s.length = 3 ∧ ∀ b ∈ s, isAsciiDigit b = true)) :
    canonRegion (strToUpper s) = true := by
  rcases hg with ⟨hl, ha⟩ | ⟨hl, ha⟩
  · simp [canonRegion, strToUpper, List.all_eq_true]
    refine Or.inl ⟨hl, ?_⟩
    intro b hb
    exact upper_of_alpha b (ha b hb)
  · simp [canonRegion, strToUpper, List.all_eq_true]
    refine Or.inr ⟨hl, ?_⟩
    intro b hb
    rw [upper_of_digit b (ha b hb)]
    exact ha b hb

theorem canonVariant_of (s : Str) (h8 : s.length ≤ 8)
    (hg : (s.length ≥ 5 ∧ headIsAlpha s = true) ∨ (s.length ≥ 4 ∧ headIsDigit s = true))
    (hb : ∀ b ∈ s, b < 128 ∧ isTagSep b = false) : canonVariant s = true := by
  simp [canonVariant, List.all_eq_true, isPlainByte]
  refine ⟨⟨h8, ?_⟩, ?_⟩
  · rcases hg with ⟨h5, hh⟩ | ⟨h4, hh⟩
    · exact Or.inl ⟨h5, hh⟩
    · exact Or.inr ⟨h4, hh⟩
  · intro b hbm
    have := hb b hbm
    simp [this.1, this.2]

theorem canonValue_of (s : Str) (h8 : s.length ≤ 8)
    (hb : ∀ b ∈ s, b < 128 ∧ isTagSep b = false) : canonValue s = true := by
  simp [canonValue, List.all_eq_true, isPlainByte]
  refine ⟨h8, ?_⟩
  intro b hbm
  have := hb b hbm
  simp [this.1, this.2]

theorem canonKvs_insert (key v : Str) (kvs : List (Str × Str))
    (hk : key = strBytes "hour-cycle" ∨ key = strBytes "calendar")
    (hkvs : canonKvs kvs = true) (hv : canonValue v = true) :
    canonKvs (insertSorted key v kvs) = true := by
  rcases kvs with _ | ⟨⟨k1, v1⟩, _ | ⟨⟨k2, v2⟩, _ | ⟨p3, rest⟩⟩⟩
  · rcases hk with rfl | rfl <;> simp [insertSorted, canonKvs, hv]
  · simp only [canonKvs, Bool.and_eq_true, Bool.or_eq_true, beq_iff_eq] at hkvs
    obtain ⟨hk1, hv1⟩ := hkvs
    rcases hk with rfl | rfl <;> rcases hk1 with rfl | rfl
    · have e : insertSorted (strBytes "hour-cycle") v [(strBytes "calendar", v1)] =
          [(strBytes "calendar", v1), (strBytes "hour-cycle", v)] := by
        unfold insertSorted
        rw [if_neg (by decide), if_neg (by decide)]
        rfl
      rw [e]
      simp [canonKvs, hv, hv1]
    · have e : insertSorted (strBytes "hour-cycle") v [(strBytes "hour-cycle", v1)] =
          [(strBytes "hour-cycle", v)] := by
        unfold insertSorted
        rw [if_neg (by decide), if_pos rfl]
      rw [e]
      simp [canonKvs, hv]
    · have e : insertSorted (strBytes "calendar") v [(strBytes "calendar", v1)] =
          [(strBytes "calendar", v)] := by
        unfold insertSorted
        rw [if_neg (by decide), if_pos rfl]
      rw [e]
      simp [canonKvs, hv]
    · have e : insertSorted (strBytes "calendar") v [(strBytes "hour-cycle", v1)] =
          [(strBytes "calendar", v), (strBytes "hour-cycle", v1)] := by
        unfold insertSorted
        rw [if_pos (by decide)]
      rw [e]
      simp [canonKvs, hv, hv1]
  · simp only [canonKvs, Bool.and_eq_true, beq_iff_eq] at hkvs
    obtain ⟨⟨⟨hk1, hk2⟩, hv1⟩, hv2⟩ := hkvs
    subst hk1
    subst hk2
    rcases hk with rfl | rfl
    · have e : insertSorted (strBytes "hour-cycle") v
          [(strBytes "calendar", v1), (strBytes "hour-cycle", v2)] =
          [(strBytes "calendar", v1), (strBytes "hour-cycle", v)] := by
        unfold insertSorted
        rw [if_neg (by decide), if_neg (by decide)]
        unfold insertSorted
        rw [if_neg (by decide), if_pos rfl]
      rw [e]
      simp [canonKvs, hv, hv1]
    · have e : insertSorted (strBytes "calendar") v
          [(strBytes "calendar", v1), (strBytes "hour-cycle", v2)] =
          [(strBytes "calendar", v), (strBytes "hour-cycle", v2)] := by
        unfold insertSorted
        rw [if_neg (by decide), if_pos rfl]
      rw [e]
      simp [canonKvs, hv, hv2]
  · simp [canonKvs] at hkvs

theorem setLanguage_ok (l : Locale) (v : Str) (l2 : Locale)
    (h : Locale.setLanguage l v = .ok l2) :
    (∃ s, l2 = { l with language := some s } ∧ canonLang s = true) ∨
    l2 = { l with language := none } := by
  unfold Locale.setLanguage at h
  split at h
  · unfold parseLanguageSubtag at h
    split at h
    · exact Except.noConfusion h
    · rename_i hc
      simp at hc
      injection h with h2
      refine Or.inl ⟨strToLower v, h2.symm, ?_⟩
      obtain ⟨hc1, hc2⟩ := hc
      exact canonLang_lower v (by omega) (fun b hb => hc2 b hb)
  · injection h with h2
    exact Or.inr h2.symm

theorem setScript_ok (l : Locale) (v : Str) (l2 : Locale)
    (h : Locale.setScript l v = .ok l2) :
    (∃ s, l2 = { l with script := some s } ∧ canonScript s = true) ∨
    l2 = { l with script := none } := by
  unfold Locale.setScript at h
  split at h
  · unfold parseScriptSubtag at h
    split at h
    · exact Except.noConfusion h
    · rename_i hc
      simp at hc
      injection h with h2
      refine Or.inl ⟨titleCaseStr v, h2.symm, ?_⟩
      exact canonScript_title v hc.1 (fun b hb => hc.2 b hb)
  · injection h with h2
    exact Or.inr h2.symm

theorem setRegion_ok (l : Locale) (v : Str) (l2 : Locale)
    (h : Locale.setRegion l v = .ok l2) :
    (∃ s, l2 = { l with region := some s } ∧ canonRegion s = true) ∨
    l2 = { l with region := none } := by
  unfold Locale.setRegion at h
  split at h
  · unfold parseRegionSubtag at h
    split at h
    · rename_i hc
      simp [List.all_eq_true] at hc
      injection h with h2
      refine Or.inl ⟨strToUpper v, h2.symm, ?_⟩
      exact canonRegion_upper v hc
    · exact Except.noConfusion h
  · injection h with h2
    exact Or.inr h2.symm

theorem step_inv (st : ParseState) (sub : Str) (st2 : ParseState)
    (hinv : stateInv st)
    (hsub : ∀ b ∈ sub, b < 128 ∧ isTagSep b = false)
    (hstep : parseSubtagStep st sub = .ok st2) :
    stateInv st2 := by
  obtain ⟨⟨lang, exl, scr, reg, var, exts, pu⟩, pos, cur, key⟩ := st
  obtain ⟨hcanon, hext, hkeys, hkeyext⟩ := hinv
  obtain ⟨hcl, hcs, hcr, hcv, hce⟩ := hcanon
  have hxs : strBytes "x" = [120] := by decide
  unfold parseSubtagStep at hstep
  dsimp only at hstep hext hkeys hkeyext hcl hcs hcr hcv hce
  by_cases h8 : sub.length > 8
  · rw [if_pos h8] at hstep
    exact Except.noConfusion hstep
  rw [if_neg h8] at hstep
  have hlen8 : sub.length ≤ 8 := Nat.le_of_not_lt h8
  rcases cur with _ | ext
  · -- currentExt = none
    dsimp only at hstep hext
    obtain ⟨hexts, hpu, hkey⟩ := hext
    subst hexts
    subst hpu
    subst hkey
    by_cases h1 : sub.length = 1
    · -- a new extension singleton opens
      rw [if_pos h1] at hstep
      rcases halpha : sub.any (fun c => !isAsciiAlpha c) with _ | _
      · rw [if_neg (by simp [halpha])] at hstep
        dsimp only at hstep
        injection hstep with h2
        subst h2
        refine ⟨⟨hcl, hcs, hcr, hcv, ?_⟩, ?_, ?_, ?_⟩
        · intro es hes
          injection hes with h3
          subst h3
          exact ⟨extNameForKey sub, [], rfl, canonExtName_of sub h1 halpha, rfl, fun _ => rfl⟩
        · exact ⟨[], rfl, canonExtName_of sub h1 halpha, rfl, fun _ => rfl⟩
        · intro k hk
          exact Option.noConfusion hk
        · intro k hk
          exact Option.noConfusion hk
      · rw [if_pos halpha] at hstep
        exact Except.noConfusion hstep
    · rw [if_neg h1] at hstep
      by_cases hp0 : pos = 0
      · -- language subtag
        rw [if_pos hp0] at hstep
        split at hstep
        · exact Except.noConfusion hstep
        · rcases hsl : Locale.setLanguage ⟨lang, exl, scr, reg, var, none, []⟩ sub with e | loc2
          · rw [hsl] at hstep
            exact Except.noConfusion hstep
          · rw [hsl] at hstep
            injection hstep with h2
            subst h2
            rcases setLanguage_ok _ _ _ hsl with ⟨s, rfl, hs⟩ | rfl
            · refine ⟨⟨?_, hcs, hcr, hcv, hce⟩, ⟨rfl, rfl, rfl⟩, ?_, ?_⟩
              · intro s2 hs2
                injection hs2 with h3
                subst h3
                exact hs
              · intro k hk
                exact Option.noConfusion hk
              · intro k hk
                exact Option.noConfusion hk
            · refine ⟨⟨?_, hcs, hcr, hcv, hce⟩, ⟨rfl, rfl, rfl⟩, ?_, ?_⟩
              · intro s2 hs2
                exact Option.noConfusion hs2
              · intro k hk
                exact Option.noConfusion hk
              · intro k hk
                exact Option.noConfusion hk
      · rw [if_neg hp0] at hstep
        split at hstep
        · -- extlang collected
          injection hstep with h2
          subst h2
          exact ⟨⟨hcl, hcs, hcr, hcv, hce⟩, ⟨rfl, rfl, rfl⟩,
                 fun k hk => Option.noConfusion hk, fun k hk => Option.noConfusion hk⟩
        · split at hstep
          · -- script subtag
            rcases hss : Locale.setScript ⟨lang, exl, scr, reg, var, none, []⟩ sub with e | loc2
            · rw [hss] at hstep
              exact Except.noConfusion hstep
            · rw [hss] at hstep
              injection hstep with h2
              subst h2
              rcases setScript_ok _ _ _ hss with ⟨s, rfl, hs⟩ | rfl
              · refine ⟨⟨hcl, ?_, hcr, hcv, hce⟩, ⟨rfl, rfl, rfl⟩,
                       fun k hk => Option.noConfusion hk, fun k hk => Option.noConfusion hk⟩
                intro s2 hs2
                injection hs2 with h3
                subst h3
                exact hs
              · refine ⟨⟨hcl, ?_, hcr, hcv, hce⟩, ⟨rfl, rfl, rfl⟩,
                       fun k hk => Option.noConfusion hk, fun k hk => Option.noConfusion hk⟩
                intro s2 hs2
                exact Option.noConfusion hs2
          · split at hstep
            · -- region subtag
              rcases hsr : Locale.setRegion ⟨lang, exl, scr, reg, var, none, []⟩ sub with e | loc2
              · rw [hsr] at hstep
                exact Except.noConfusion hstep
              · rw [hsr] at hstep
                injection hstep with h2
                subst h2
                rcases setRegion_ok _ _ _ hsr with ⟨s, rfl, hs⟩ | rfl
                · refine ⟨⟨hcl, hcs, ?_, hcv, hce⟩, ⟨rfl, rfl, rfl⟩,
                         fun k hk => Option.noConfusion hk, fun k hk => Option.noConfusion hk⟩
                  intro s2 hs2
                  injection hs2 with h3
                  subst h3
                  exact hs
                · refine ⟨⟨hcl, hcs, ?_, hcv, hce⟩, ⟨rfl, rfl, rfl⟩,
                         fun k hk => Option.noConfusion hk, fun k hk => Option.noConfusion hk⟩
                  intro s2 hs2
                  exact Option.noConfusion hs2
            · split at hstep
              · -- variant collected
                rename_i hvb
                injection hstep with h2
                subst h2
                refine ⟨⟨hcl, hcs, hcr, ?_, hce⟩, ⟨rfl, rfl, rfl⟩,
                       fun k hk => Option.noConfusion hk, fun k hk => Option.noConfusion hk⟩
                intro vs hvs
                injection hvs with h3
                subst h3
                have hguard : (sub.length ≥ 5 ∧ headIsAlpha sub = true) ∨
                    (sub.length ≥ 4 ∧ headIsDigit sub = true) := by
                  simp at hvb
                  tauto
                have hvar : ∀ v ∈ var.getD [], canonVariant v = true := by
                  cases var with
                  | none => simp
                  | some vs0 => exact (hcv vs0 rfl).2
                constructor
                · simp
                · intro v hv
                  rcases List.mem_append.mp hv with hv1 | hv2
                  · exact hvar v hv1
                  · rcases List.mem_singleton.mp hv2 with rfl
                    exact canonVariant_of _ hlen8 hguard hsub
              · exact Except.noConfusion hstep
  · -- currentExt = some ext
    dsimp only at hstep hext
    obtain ⟨kvs, hexts, hname, hkvs, hx⟩ := hext
    subst hexts
    by_cases hx120 : ext = strBytes "x"
    · rw [if_pos hx120] at hstep
      injection hstep with h2
      subst h2
      exact ⟨⟨hcl, hcs, hcr, hcv, hce⟩, ⟨kvs, rfl, hname, hkvs, hx⟩, hkeys, hkeyext⟩
    · rw [if_neg hx120] at hstep
      have hxne : ext ≠ [120] := fun hc => hx120 (hc.trans hxs.symm)
      rcases key with _ | k
      · -- a new option key arrives
        dsimp only at hstep
        rcases hopt : optionNameForKey sub with _ | name
        · rw [hopt] at hstep
          exact Except.noConfusion hstep
        · rw [hopt] at hstep
          injection hstep with h2
          subst h2
          refine ⟨⟨hcl, hcs, hcr, hcv, hce⟩, ⟨kvs, rfl, hname, hkvs, hx⟩, ?_, ?_⟩
          · intro k2 hk2
            injection hk2 with h3
            subst h3
            unfold optionNameForKey at hopt
            split_ifs at hopt with ha hb
            · injection hopt with h4
              exact Or.inl h4.symm
            · injection hopt with h4
              exact Or.inr h4.symm
          · intro k2 hk2
            exact ⟨ext, rfl, hxne⟩
      · -- the pending key receives its value
        dsimp only at hstep
        injection hstep with h2
        subst h2
        have hupd : updateKey ext (insertSorted k sub) [(ext, kvs)] =
            [(ext, insertSorted k sub kvs)] := by
          unfold updateKey
          rw [if_pos rfl]
        rw [hupd]
        have hkk := hkeys k rfl
        have hnewkvs : canonKvs (insertSorted k sub kvs) = true :=
          canonKvs_insert k sub kvs hkk hkvs (canonValue_of sub hlen8 hsub)
        refine ⟨⟨hcl, hcs, hcr, hcv, ?_⟩,
               ⟨insertSorted k sub kvs, rfl, hname, hnewkvs, fun hc => absurd hc hxne⟩,
               fun k2 hk2 => Option.noConfusion hk2, fun k2 hk2 => Option.noConfusion hk2⟩
        intro es hes
        injection hes with h3
        subst h3
        exact ⟨ext, insertSorted k sub kvs, rfl, hname, hnewkvs, fun hc => absurd hc hxne⟩

theorem exbind_ok {ε α β : Type} (a : α) (f : α → Except ε β) :
    (Except.ok a >>= f) = f a := rfl

theorem toLowerByte_id (b : Nat) (h : isLowerAlpha b = true) : toLowerByte b = b := by
  simp [isLowerAlpha] at h
  unfold toLowerByte
  rw [if_neg (by simp; omega)]

theorem toUpperByte_id_upper (b : Nat) (h : isUpperAlpha b = true) : toUpperByte b = b := by
  simp [isUpperAlpha] at h
  unfold toUpperByte
  rw [if_neg (by simp; omega)]

theorem strToLower_id (s : Str) (h : ∀ b ∈ s, isLowerAlpha b = true) :
    strToLower s = s := by
  induction s with
  | nil => rfl
  | cons b rest ih =>
    show toLowerByte b :: strToLower rest = b :: rest
    rw [toLowerByte_id b (h b (by simp)), ih (fun x hx => h x (by simp [hx]))]

theorem strToUpper_id (s : Str)
    (h : ∀ b ∈ s, isUpperAlpha b = true ∨ isAsciiDigit b = true) :
    strToUpper s = s := by
  induction s with
  | nil => rfl
  | cons b rest ih =>
    show toUpperByte b :: strToUpper rest = b :: rest
    have hb : toUpperByte b = b := by
      rcases h b (by simp) with hu | hd
      · exact toUpperByte_id_upper b hu
      · exact upper_of_digit b hd
    rw [hb, ih (fun x hx => h x (by simp [hx]))]

theorem titleCaseStr_id (s : Str) (h : canonScript s = true) : titleCaseStr s = s := by
  rcases s with _ | ⟨b, rest⟩
  · simp [canonScript] at h
  · simp [canonScript, List.all_eq_true] at h
    obtain ⟨⟨h3, hup⟩, hlow⟩ := h
    show toUpperByte (toLowerByte b) :: strToLower rest = b :: rest
    have hb : toUpperByte (toLowerByte b) = b := by
      simp [isUpperAlpha] at hup
      have h1 : toLowerByte b = b + 32 := by
        unfold toLowerByte
        rw [if_pos (by simp; omega)]
      have h2 : toUpperByte (b + 32) = b := by
        unfold toUpperByte
        rw [if_pos (by simp; omega)]
        omega
      rw [h1, h2]
    rw [hb, strToLower_id rest (fun x hx => hlow x (by simp [hx]))]

theorem joinDash_ne_nil (p : Str) (ps : List Str) (hp : p ≠ []) :
    joinDash (p :: ps) ≠ [] := by
  rcases ps with _ | ⟨q, qs⟩
  · simpa [joinDash] using hp
  · show p ++ 45 :: joinDash (q :: qs) ≠ []
    simp

theorem step_lang (lang : Str) (hc : canonLang lang = true)
    (hund : lang ≠ strBytes "und") :
    parseSubtagStep ⟨Locale.empty, 0, none, none⟩ lang =
      .ok ⟨⟨some lang, none, none, none, none, none, []⟩, 1, none, none⟩ := by
  have hc2 : (lang.length = 2 ∨ lang.length = 3) ∧ ∀ b ∈ lang, isLowerAlpha b = true := by
    simpa [canonLang, List.all_eq_true] using hc
  obtain ⟨hlen, hlow⟩ := hc2
  have hne : lang ≠ [] := by
    intro h
    rw [h] at hlen
    simp at hlen
  have hset : Locale.setLanguage Locale.empty lang =
      .ok ⟨some lang, none, none, none, none, none, []⟩ := by
    unfold Locale.setLanguage
    rw [if_pos (by simp [hne, hund])]
    unfold parseLanguageSubtag
    rw [if_neg (by simp [List.any_eq_true]; exact ⟨by omega,
      fun b hb => lowerAlpha_alpha b (hlow b hb)⟩)]
    rw [exbind_ok, strToLower_id lang hlow]
    rfl
  unfold parseSubtagStep
  dsimp only
  rw [if_neg (by omega)]
  rw [if_neg (by omega)]
  rw [if_pos rfl]
  rw [if_neg (by simp; omega)]
  rw [hset]
  dsimp only
  rw [if_pos (by omega)]

theorem step_script (loc : Locale) (s : Str) (hc : canonScript s = true) :
    parseSubtagStep ⟨loc, 1, none, none⟩ s =
      .ok ⟨{ loc with script := some s }, 3, none, none⟩ := by
  have hlen : s.length = 4 := by
    rcases s with _ | ⟨b, rest⟩
    · simp [canonScript] at hc
    · simp [canonScript] at hc
      simp [hc.1.1]
  have halpha : ∀ b ∈ s, isAsciiAlpha b = true := by
    rcases s with _ | ⟨b, rest⟩
    · simp
    · simp [canonScript, List.all_eq_true] at hc
      intro x hx
      rcases List.mem_cons.mp hx with rfl | hx2
      · exact upperAlpha_alpha x hc.1.2
      · exact lowerAlpha_alpha x (hc.2 x hx2)
  have hset : Locale.setScript loc s = .ok { loc with script := some s } := by
    unfold Locale.setScript
    rw [if_pos (by simp; intro h; rw [h] at hlen; simp at hlen)]
    unfold parseScriptSubtag
    rw [if_neg (by simp [List.any_eq_true, hlen]; exact fun b hb => halpha b hb)]
    rw [exbind_ok, titleCaseStr_id s hc]
  unfold parseSubtagStep
  dsimp only
  rw [if_neg (by omega)]
  rw [if_neg (by omega)]
  rw [if_neg (by omega)]
  rw [if_neg (by simp [hlen])]
  rw [if_pos (by simp [hlen, List.all_eq_true]; exact fun b hb => halpha b hb)]
  rw [hset, exbind_ok]

theorem step_region (loc : Locale) (p : Nat) (hp : p = 1 ∨ p = 3) (s : Str)
    (hc : canonRegion s = true) :
    parseSubtagStep ⟨loc, p, none, none⟩ s =
      .ok ⟨{ loc with region := some s }, 4, none, none⟩ := by
  have hc2 : (s.length = 2 ∧ ∀ b ∈ s, isUpperAlpha b = true) ∨
      (s.length = 3 ∧ ∀ b ∈ s, isAsciiDigit b = true) := by
    simpa [canonRegion, List.all_eq_true] using hc
  have hlen : s.length = 2 ∨ s.length = 3 := by
    rcases hc2 with ⟨h, _⟩ | ⟨h, _⟩
    · exact Or.inl h
    · exact Or.inr h
  have hne : s ≠ [] := by
    intro h
    rw [h] at hlen
    simp at hlen
  have hguard : ((decide (s.length = 2) && s.all isAsciiAlpha) ||
      (decide (s.length = 3) && s.all isAsciiDigit)) = true := by
    rcases hc2 with ⟨h2, hall⟩ | ⟨h3, hall⟩
    · simp [h2, List.all_eq_true]
      exact fun b hb => upperAlpha_alpha b (hall b hb)
    · simp [h3, List.all_eq_true]
      exact fun b hb => hall b hb
  have hset : Locale.setRegion loc s = .ok { loc with region := some s } := by
    unfold Locale.setRegion
    rw [if_pos (by simp [hne])]
    unfold parseRegionSubtag
    rw [if_pos hguard]
    rw [exbind_ok]
    have hid : strToUpper s = s := by
      apply strToUpper_id
      intro b hb
      rcases hc2 with ⟨_, hall⟩ | ⟨_, hall⟩
      · exact Or.inl (hall b hb)
      · exact Or.inr (hall b hb)
    rw [hid]
  have hnotalpha3 : s.length = 3 → s.all isAsciiAlpha = false := by
    intro h3
    rcases hc2 with ⟨h2, _⟩ | ⟨_, hall⟩
    · omega
    · rcases s with _ | ⟨b, rest⟩
      · simp at h3
      · have hd := hall b (by simp)
        simp [isAsciiDigit] at hd
        simp [List.all_cons, isAsciiAlpha]
        intro hb
        omega
  unfold parseSubtagStep
  dsimp only
  rw [if_neg (by omega)]
  rw [if_neg (by omega)]
  rw [if_neg (by rcases hp with rfl | rfl <;> omega)]
  rw [if_neg (by
    rcases hp with rfl | rfl
    · by_cases h3 : s.length = 3
      · simp [hnotalpha3 h3]
      · simp [h3]
    · simp)]
  rw [if_neg (by simp; omega)]
  rw [if_pos (by simp only [Bool.and_eq_true, decide_eq_true_eq]
                 exact ⟨by rcases hp with rfl | rfl <;> omega, hguard⟩)]
  rw [hset, exbind_ok]

theorem step_variant (loc : Locale) (p : Nat) (hp : p = 1 ∨ p = 3 ∨ p = 4) (v : Str)
    (hc : canonVariant v = true) :
    parseSubtagStep ⟨loc, p, none, none⟩ v =
      .ok ⟨{ loc with variants := some (loc.variants.getD [] ++ [v]) }, 4, none, none⟩ := by
  have hc2 : (v.length ≤ 8 ∧ ((5 ≤ v.length ∧ headIsAlpha v = true) ∨
      (4 ≤ v.length ∧ headIsDigit v = true))) ∧ ∀ b ∈ v, isPlainByte b = true := by
    simpa [canonVariant, List.all_eq_true] using hc
  obtain ⟨⟨h8, hguard⟩, hplain⟩ := hc2
  have hlen4 : 4 ≤ v.length := by
    rcases hguard with ⟨h5, _⟩ | ⟨h4, _⟩
    · omega
    · exact h4
  have hnotalpha : v.length = 4 → v.all isAsciiAlpha = false := by
    intro h4
    rcases hguard with ⟨h5, _⟩ | ⟨_, hd⟩
    · omega
    · rcases v with _ | ⟨b, rest⟩
      · simp at h4
      · simp [headIsDigit] at hd
        simp [isAsciiDigit] at hd
        simp [List.all_cons, isAsciiAlpha]
        intro hb
        omega
  unfold parseSubtagStep
  dsimp only
  rw [if_neg (by omega)]
  rw [if_neg (by omega)]
  rw [if_neg (by rcases hp with rfl | rfl | rfl <;> omega)]
  rw [if_neg (by simp; omega)]
  rw [if_neg (by
    by_cases h4 : v.length = 4
    · simp [hnotalpha h4]
    · simp [h4])]
  rw [if_neg (by simp; omega)]
  rw [if_pos (by
    simp only [Bool.and_eq_true, Bool.or_eq_true, decide_eq_true_eq]
    refine ⟨by rcases hp with rfl | rfl | rfl <;> omega, ?_⟩
    rcases hguard with ⟨h5, hh⟩ | ⟨h4, hh⟩
    · exact Or.inl ⟨h5, hh⟩
    · exact Or.inr ⟨h4, hh⟩)]

theorem step_ext (loc : Locale) (p : Nat) (name : Str)
    (hc : canonExtName name = true) (h0 : loc.extensions = none) :
    parseSubtagStep ⟨loc, p, none, none⟩ (extKeyForName name) =
      .ok ⟨{ loc with extensions := some [(name, [])] }, p, some name, none⟩ := by
  have hu : strBytes "unicode" = [117, 110, 105, 99, 111, 100, 101] := by decide
  simp only [canonExtName, Bool.or_eq_true, Bool.and_eq_true, beq_iff_eq,
    bne_iff_ne, decide_eq_true_eq, List.all_eq_true] at hc
  rcases hc with rfl | ⟨⟨h1, halpha⟩, hne117⟩
  · have hkey : extKeyForName (strBytes "unicode") = [117] := by decide
    rw [hkey]
    unfold parseSubtagStep
    dsimp only
    rw [if_neg (by simp)]
    rw [if_pos (by simp)]
    rw [if_neg (by simp [isAsciiAlpha])]
    rw [h0]
    have hn : extNameForKey [117] = strBytes "unicode" := by decide
    rw [hn]
  · rcases name with _ | ⟨c, _ | _⟩
    · simp at h1
    · have hkey : extKeyForName [c] = [c] := by
        unfold extKeyForName
        rw [if_neg (by rw [hu]; simp)]
      rw [hkey]
      have hca : isAsciiAlpha c = true := halpha c (by simp)
      unfold parseSubtagStep
      dsimp only
      rw [if_neg (by simp)]
      rw [if_pos (by simp)]
      rw [if_neg (by simp [hca])]
      rw [h0]
      have hn : extNameForKey [c] = [c] := by
        unfold extNameForKey
        rw [if_neg (by simp [strBytes]; intro h; exact absurd (by simpa using h) (by simpa using hne117))]
      rw [hn]
    · simp at h1

theorem step_key_ca (loc : Locale) (p : Nat) (name : Str)
    (hne : name ≠ strBytes "x") :
    parseSubtagStep ⟨loc, p, some name, none⟩ (strBytes "ca") =
      .ok ⟨loc, p, some name, some (strBytes "calendar")⟩ := by
  unfold parseSubtagStep
  dsimp only
  rw [if_neg (by decide)]
  rw [if_neg hne]
  have h : optionNameForKey (strBytes "ca") = some (strBytes "calendar") := by decide
  rw [h]

theorem step_key_hc (loc : Locale) (p : Nat) (name : Str)
    (hne : name ≠ strBytes "x") :
    parseSubtagStep ⟨loc, p, some name, none⟩ (strBytes "hc") =
      .ok ⟨loc, p, some name, some (strBytes "hour-cycle")⟩ := by
  unfold parseSubtagStep
  dsimp only
  rw [if_neg (by decide)]
  rw [if_neg hne]
  have h : optionNameForKey (strBytes "hc") = some (strBytes "hour-cycle") := by decide
  rw [h]

theorem step_val (loc : Locale) (p : Nat) (name : Str) (acc : List (Str × Str))
    (k v : Str) (hne : name ≠ strBytes "x") (h8 : v.length ≤ 8)
    (hexts : loc.extensions = some [(name, acc)]) :
    parseSubtagStep ⟨loc, p, some name, some k⟩ v =
      .ok ⟨{ loc with extensions := some [(name, insertSorted k v acc)] }, p, some name, none⟩ := by
  unfold parseSubtagStep
  dsimp only
  rw [if_neg (by omega)]
  rw [if_neg hne]
  rw [hexts]
  dsimp only
  have hupd : updateKey name (insertSorted k v) [(name, acc)] = [(name, insertSorted k v acc)] := by
    unfold updateKey
    rw [if_pos rfl]
  rw [hupd]

theorem fold_variants_go (vs : List Str) (loc : Locale) (p : Nat)
    (hp : p = 1 ∨ p = 3 ∨ p = 4) (hvs : ∀ v ∈ vs, canonVariant v = true) (hne : vs ≠ []) :
    List.foldlM parseSubtagStep ⟨loc, p, none, none⟩ vs =
      .ok ⟨{ loc with variants := some (loc.variants.getD [] ++ vs) }, 4, none, none⟩ := by
  induction vs generalizing loc p with
  | nil => exact absurd rfl hne
  | cons v rest ih =>
    rw [List.foldlM_cons, step_variant loc p hp v (hvs v (by simp)), exbind_ok]
    rcases rest with _ | ⟨v2, rest2⟩
    · rfl
    · rw [ih { loc with variants := some (loc.variants.getD [] ++ [v]) } 4 (by simp)
          (fun x hx => hvs x (by simp [hx])) (by simp)]
      dsimp only
      simp [List.append_assoc]

theorem fold_script_opt (scrO : Option Str) (loc : Locale)
    (hs : ∀ s, scrO = some s → canonScript s = true) (h0 : loc.script = none) :
    ∃ p2, (p2 = 1 ∨ p2 = 3) ∧
      List.foldlM parseSubtagStep ⟨loc, 1, none, none⟩
        (Option.elim scrO [] (fun s => [s])) =
        .ok ⟨{ loc with script := scrO }, p2, none, none⟩ := by
  obtain ⟨l1, l2, l3, l4, l5, l6, l7⟩ := loc
  dsimp only at h0
  subst h0
  rcases scrO with _ | s
  · exact ⟨1, Or.inl rfl, rfl⟩
  · refine ⟨3, Or.inr rfl, ?_⟩
    dsimp only [Option.elim]
    rw [List.foldlM_cons, step_script _ s (hs s rfl), exbind_ok]
    rfl

theorem fold_region_opt (regO : Option Str) (loc : Locale) (p : Nat)
    (hp : p = 1 ∨ p = 3)
    (hr : ∀ s, regO = some s → canonRegion s = true) (h0 : loc.region = none) :
    ∃ p2, (p2 = 1 ∨ p2 = 3 ∨ p2 = 4) ∧
      List.foldlM parseSubtagStep ⟨loc, p, none, none⟩
        (Option.elim regO [] (fun r => [r])) =
        .ok ⟨{ loc with region := regO }, p2, none, none⟩ := by
  obtain ⟨l1, l2, l3, l4, l5, l6, l7⟩ := loc
  dsimp only at h0
  subst h0
  rcases regO with _ | r
  · exact ⟨p, by tauto, rfl⟩
  · refine ⟨4, by tauto, ?_⟩
    dsimp only [Option.elim]
    rw [List.foldlM_cons, step_region _ p hp r (hr r rfl), exbind_ok]
    rfl

theorem fold_variants_opt (varO : Option (List Str)) (loc : Locale) (p : Nat)
    (hp : p = 1 ∨ p = 3 ∨ p = 4)
    (hv : ∀ vs, varO = some vs → vs ≠ [] ∧ ∀ v ∈ vs, canonVariant v = true)
    (h0 : loc.variants = none) :
    ∃ p2, List.foldlM parseSubtagStep ⟨loc, p, none, none⟩
        (Option.elim varO [] (fun vs => vs)) =
        .ok ⟨{ loc with variants := varO }, p2, none, none⟩ := by
  obtain ⟨l1, l2, l3, l4, l5, l6, l7⟩ := loc
  dsimp only at h0
  subst h0
  rcases varO with _ | vs
  · exact ⟨p, rfl⟩
  · obtain ⟨hne, hall⟩ := hv vs rfl
    refine ⟨4, ?_⟩
    dsimp only [Option.elim]
    rw [fold_variants_go vs _ p hp hall hne]
    simp

theorem plain_bytes (b : Nat) (h : isPlainByte b = true) :
    b < 128 ∧ isTagSep b = false := by
  simp [isPlainByte] at h
  exact ⟨h.1, by simpa using h.2⟩

theorem alpha_bytes (b : Nat) (h : isAsciiAlpha b = true) :
    b < 128 ∧ isTagSep b = false := by
  simp [isAsciiAlpha] at h
  simp [isTagSep]
  omega

theorem digit_bytes (b : Nat) (h : isAsciiDigit b = true) :
    b < 128 ∧ isTagSep b = false := by
  simp [isAsciiDigit] at h
  simp [isTagSep]
  omega

theorem canonLang_bytes (s : Str) (h : canonLang s = true) :
    ∀ b ∈ s, b < 128 ∧ isTagSep b = false := by
  simp [canonLang, List.all_eq_true] at h
  intro b hb
  exact alpha_bytes b (lowerAlpha_alpha b (h.2 b hb))

theorem canonScript_bytes (s : Str) (h : canonScript s = true) :
    ∀ b ∈ s, b < 128 ∧ isTagSep b = false := by
  rcases s with _ | ⟨b, rest⟩
  · simp
  · simp [canonScript, List.all_eq_true] at h
    intro x hx
    rcases List.mem_cons.mp hx with rfl | hx2
    · exact alpha_bytes x (upperAlpha_alpha x h.1.2)
    · exact alpha_bytes x (lowerAlpha_alpha x (h.2 x hx2))

theorem canonRegion_bytes (s : Str) (h : canonRegion s = true) :
    ∀ b ∈ s, b < 128 ∧ isTagSep b = false := by
  simp [canonRegion, List.all_eq_true] at h
  intro b hb
  rcases h with ⟨_, hall⟩ | ⟨_, hall⟩
  · exact alpha_bytes b (upperAlpha_alpha b (hall b hb))
  · exact digit_bytes b (hall b hb)

theorem canonVariant_bytes (s : Str) (h : canonVariant s = true) :
    ∀ b ∈ s, b < 128 ∧ isTagSep b = false := by
  simp [canonVariant, List.all_eq_true] at h
  intro b hb
  exact plain_bytes b (h.2 b hb)

theorem canonValue_bytes (s : Str) (h : canonValue s = true) :
    ∀ b ∈ s, b < 128 ∧ isTagSep b = false := by
  simp [canonValue, List.all_eq_true] at h
  intro b hb
  exact plain_bytes b (h.2 b hb)

theorem extKey_bytes (name : Str) (h : canonExtName name = true) :
    ∀ b ∈ extKeyForName name, b < 128 ∧ isTagSep b = false := by
  simp only [canonExtName, Bool.or_eq_true, Bool.and_eq_true, beq_iff_eq,
    bne_iff_ne, decide_eq_true_eq, List.all_eq_true] at h
  rcases h with rfl | ⟨⟨h1, halpha⟩, _⟩
  · intro b hb
    have : extKeyForName (strBytes "unicode") = [117] := by decide
    rw [this] at hb
    rcases List.mem_singleton.mp hb with rfl
    simp [isTagSep]
  · intro b hb
    have hk : extKeyForName name = name := by
      unfold extKeyForName
      rw [if_neg (by intro hh; rw [hh] at h1; simp [strBytes] at h1)]
    rw [hk] at hb
    exact alpha_bytes b (halpha b hb)


theorem fold_ext_opt (extsO : Option (List (Str × List (Str × Str)))) (loc : Locale) (p : Nat)
    (he : ∀ es, extsO = some es → ∃ name kvs, es = [(name, kvs)] ∧ canonExtName name = true ∧
       canonKvs kvs = true ∧ (name = [120] → kvs = []))
    (h0 : loc.extensions = none) :
    ∃ ep st2, Option.elim extsO (some []) renderExts = some ep ∧
      List.foldlM parseSubtagStep ⟨loc, p, none, none⟩ ep = .ok st2 ∧
      st2.loc = { loc with extensions := extsO } ∧
      (∀ pc ∈ ep, ∀ b ∈ pc, b < 128 ∧ isTagSep b = false) := by
  obtain ⟨l1, l2, l3, l4, l5, l6, l7⟩ := loc
  dsimp only at h0
  subst h0
  rcases extsO with _ | es
  · exact ⟨[], _, rfl, rfl, rfl, by simp⟩
  · obtain ⟨name, kvs, rfl, hname, hkvs, hx⟩ := he _ rfl
    dsimp only [Option.elim]
    rcases kvs with _ | ⟨⟨k1, v1⟩, _ | ⟨⟨k2, v2⟩, _ | ⟨p3, rest⟩⟩⟩
    · refine ⟨[extKeyForName name],
             ⟨⟨l1, l2, l3, l4, l5, some [(name, [])], l7⟩, p, some name, none⟩, rfl, ?_, rfl, ?_⟩
      · rw [List.foldlM_cons, step_ext _ p name hname rfl, exbind_ok]
        rfl
      · intro pc hpc
        rcases List.mem_singleton.mp hpc with rfl
        exact extKey_bytes name hname
    · simp only [canonKvs, Bool.and_eq_true, Bool.or_eq_true, beq_iff_eq] at hkvs
      obtain ⟨hk1, hv1⟩ := hkvs
      have hnex : name ≠ strBytes "x" := by
        intro hh
        have h120 : name = [120] := by rw [hh]; decide
        exact absurd (hx h120) (by simp)
      have hv8 : v1.length ≤ 8 := by
        simp [canonValue] at hv1
        exact hv1.1
      rcases hk1 with rfl | rfl
      · refine ⟨[extKeyForName name, strBytes "ca", v1],
               ⟨⟨l1, l2, l3, l4, l5, some [(name, [(strBytes "calendar", v1)])], l7⟩,
                p, some name, none⟩, ?_, ?_, rfl, ?_⟩
        · unfold renderExts renderKvs
          rw [show optionKeyForName (strBytes "calendar") = some (strBytes "ca") from by decide]
          rfl
        · rw [List.foldlM_cons, step_ext _ p name hname rfl, exbind_ok,
              List.foldlM_cons, step_key_ca _ p name hnex, exbind_ok,
              List.foldlM_cons, step_val _ p name [] (strBytes "calendar") v1 hnex hv8 rfl,
              exbind_ok]
          rfl
        · intro pc hpc
          rcases List.mem_cons.mp hpc with rfl | hpc2
          · exact extKey_bytes _ hname
          rcases List.mem_cons.mp hpc2 with rfl | hpc3
          · decide
          rcases List.mem_singleton.mp hpc3 with rfl
          exact canonValue_bytes _ hv1
      · refine ⟨[extKeyForName name, strBytes "hc", v1],
               ⟨⟨l1, l2, l3, l4, l5, some [(name, [(strBytes "hour-cycle", v1)])], l7⟩,
                p, some name, none⟩, ?_, ?_, rfl, ?_⟩
        · unfold renderExts renderKvs
          rw [show optionKeyForName (strBytes "hour-cycle") = some (strBytes "hc") from by decide]
          rfl
        · rw [List.foldlM_cons, step_ext _ p name hname rfl, exbind_ok,
              List.foldlM_cons, step_key_hc _ p name hnex, exbind_ok,
              List.foldlM_cons, step_val _ p name [] (strBytes "hour-cycle") v1 hnex hv8 rfl,
              exbind_ok]
          rfl
        · intro pc hpc
          rcases List.mem_cons.mp hpc with rfl | hpc2
          · exact extKey_bytes _ hname
          rcases List.mem_cons.mp hpc2 with rfl | hpc3
          · decide
          rcases List.mem_singleton.mp hpc3 with rfl
          exact canonValue_bytes _ hv1
    · simp only [canonKvs, Bool.and_eq_true, beq_iff_eq] at hkvs
      obtain ⟨⟨⟨hk1, hk2⟩, hv1⟩, hv2⟩ := hkvs
      subst hk1
      subst hk2
      have hnex : name ≠ strBytes "x" := by
        intro hh
        have h120 : name = [120] := by rw [hh]; decide
        exact absurd (hx h120) (by simp)
      have hv18 : v1.length ≤ 8 := by
        simp [canonValue] at hv1
        exact hv1.1
      have hv28 : v2.length ≤ 8 := by
        simp [canonValue] at hv2
        exact hv2.1
      refine ⟨[extKeyForName name, strBytes "ca", v1, strBytes "hc", v2],
             ⟨⟨l1, l2, l3, l4, l5,
               some [(name, [(strBytes "calendar", v1), (strBytes "hour-cycle", v2)])], l7⟩,
              p, some name, none⟩, ?_, ?_, rfl, ?_⟩
      · have hrk2 : renderKvs [(strBytes "hour-cycle", v2)] = some [strBytes "hc", v2] := by
          unfold renderKvs
          rw [show optionKeyForName (strBytes "hour-cycle") = some (strBytes "hc") from by decide]
          rfl
        unfold renderExts renderKvs
        rw [show optionKeyForName (strBytes "calendar") = some (strBytes "ca") from by decide, hrk2]
        rfl
      · rw [List.foldlM_cons, step_ext _ p name hname rfl, exbind_ok,
            List.foldlM_cons, step_key_ca _ p name hnex, exbind_ok,
            List.foldlM_cons, step_val _ p name [] (strBytes "calendar") v1 hnex hv18 rfl,
            exbind_ok,
            List.foldlM_cons, step_key_hc _ p name hnex, exbind_ok,
            List.foldlM_cons,
            step_val _ p name [(strBytes "calendar", v1)] (strBytes "hour-cycle") v2 hnex hv28 rfl,
            exbind_ok]
        have hins : insertSorted (strBytes "hour-cycle") v2 [(strBytes "calendar", v1)] =
            [(strBytes "calendar", v1), (strBytes "hour-cycle", v2)] := by
          unfold insertSorted
          rw [if_neg (by decide), if_neg (by decide)]
          rfl
        rw [hins]
        rfl
      · intro pc hpc
        rcases List.mem_cons.mp hpc with rfl | hpc2
        · exact extKey_bytes _ hname
        rcases List.mem_cons.mp hpc2 with rfl | hpc3
        · decide
        rcases List.mem_cons.mp hpc3 with rfl | hpc4
        · exact canonValue_bytes _ hv1
        rcases List.mem_cons.mp hpc4 with rfl | hpc5
        · decide
        rcases List.mem_singleton.mp hpc5 with rfl
        exact canonValue_bytes _ hv2
    · simp [canonKvs] at hkvs

theorem init_inv : stateInv ⟨Locale.empty, 0, none, none⟩ :=
  ⟨⟨fun _ h => Option.noConfusion h, fun _ h => Option.noConfusion h,
    fun _ h => Option.noConfusion h, fun _ h => Option.noConfusion h,
    fun _ h => Option.noConfusion h⟩,
   ⟨rfl, rfl, rfl⟩, fun _ h => Option.noConfusion h, fun _ h => Option.noConfusion h⟩

theorem foldl_inv (subs : List Str) (st st2 : ParseState)
    (hinv : stateInv st)
    (hsub : ∀ p ∈ subs, ∀ b ∈ p, b < 128 ∧ isTagSep b = false)
    (h : List.foldlM parseSubtagStep st subs = .ok st2) : stateInv st2 := by
  induction subs generalizing st with
  | nil =>
    injection h with h2
    subst h2
    exact hinv
  | cons q rest ih =>
    rw [List.foldlM_cons] at h
    rcases hq : parseSubtagStep st q with e | st1
    · rw [hq] at h
      exact Except.noConfusion h
    · rw [hq, exbind_ok] at h
      exact ih st1 (step_inv st q st1 hinv (hsub q (by simp)) hq)
        (fun p hp b hb => hsub p (by simp [hp]) b hb) h

theorem parse_canon (t : Str) (L : Locale) (h : parseLanguageTag t = .ok L) :
    canonLocale L := by
  unfold parseLanguageTag at h
  split at h
  · exact Except.noConfusion h
  · rename_i h128
    split at h
    · injection h with h2
      subst h2
      exact ⟨fun _ hh => Option.noConfusion hh, fun _ hh => Option.noConfusion hh,
             fun _ hh => Option.noConfusion hh, fun _ hh => Option.noConfusion hh,
             fun _ hh => Option.noConfusion hh⟩
    · rcases hf : List.foldlM parseSubtagStep ⟨Locale.empty, 0, none, none⟩ (splitTags t)
        with e | stf
      · rw [hf] at h
        exact Except.noConfusion h
      · rw [hf, exbind_ok] at h
        injection h with h2
        subst h2
        have hb : ∀ p ∈ splitTags t, ∀ b ∈ p, b < 128 ∧ isTagSep b = false := by
          intro p hp b hbm
          have hmem := splitTags_bytes t p hp b hbm
          refine ⟨?_, hmem.2⟩
          simp only [List.any_eq_true, decide_eq_true_eq, not_exists] at h128
          have := h128 b
          simp [hmem.1] at this
          omega
        exact (foldl_inv _ _ _ init_inv hb hf).1

theorem obind_some {α β : Type} (a : α) (f : α → Option β) : (some a >>= f) = f a := rfl

theorem expure_bind {ε α β : Type} (a : α) (f : α → Except ε β) :
    ((pure a : Except ε α) >>= f) = f a := rfl


theorem localeToString_eq (l : Locale) (ep : List Str)
    (h : Option.elim l.extensions (some []) renderExts = some ep) :
    localeToString l = some (joinDash ([l.getLanguage] ++
      Option.elim l.script [] (fun s => [s]) ++
      Option.elim l.region [] (fun r => [r]) ++
      Option.elim l.variants [] (fun vs => vs) ++ ep)) := by
  obtain ⟨l1, l2, l3, l4, l5, l6, l7⟩ := l
  dsimp only [Option.elim] at h ⊢
  unfold localeToString
  rcases l6 with _ | es <;> rcases l3 with _ | s <;> rcases l4 with _ | r <;>
    rcases l5 with _ | vs <;>
    dsimp only at h ⊢ <;>
    first
      | (injection h with h2; subst h2; rfl)
      | (rw [h, obind_some]; rfl)

/-- C2 (amended): for every successfully parsed locale whose extlang and
private-use lists are empty, whose language is not the (representable)
"und" tag, and which does not have body subtags without a language,
serializing and re-parsing reproduces the locale exactly. -/
theorem c2_round_trip (x : Str) (L : Locale)
    (hp : parseLanguageTag x = .ok L)
    (hel : L.extlangs = none)
    (hpu : L.privateuse = [])
    (hund : L.language ≠ some (strBytes "und"))
    (hshape : L.language ≠ none ∨
      (L.script = none ∧ L.region = none ∧ L.variants = none ∧ L.extensions = none)) :
    ∃ s, localeToString L = some s ∧ parseLanguageTag s = .ok L := by
  have hcanon := parse_canon x L hp
  clear hp
  obtain ⟨lO, exl, scrO, regO, varO, extsO, pu⟩ := L
  obtain ⟨hcl, hcs, hcr, hcv, hce⟩ := hcanon
  dsimp only at hcl hcs hcr hcv hce hel hpu hund hshape
  subst hel
  subst hpu
  rcases lO with _ | lang
  · rcases hshape with hno | ⟨h1, h2, h3, h4⟩
    · exact absurd rfl hno
    subst h1
    subst h2
    subst h3
    subst h4
    exact ⟨[], rfl, rfl⟩
  · have hlang : canonLang lang = true := hcl lang rfl
    have hund2 : lang ≠ strBytes "und" := fun hh => hund (by rw [hh])
    have hlangne : lang ≠ [] := by
      intro hh
      rw [hh] at hlang
      simp [canonLang] at hlang
    obtain ⟨p2, hp2, hfs⟩ := fold_script_opt scrO
      ⟨some lang, none, none, none, none, none, []⟩ hcs rfl
    dsimp only at hfs
    obtain ⟨p3, hp3, hfr⟩ := fold_region_opt regO
      ⟨some lang, none, scrO, none, none, none, []⟩ p2 hp2 hcr rfl
    dsimp only at hfr
    obtain ⟨p4, hfv⟩ := fold_variants_opt varO
      ⟨some lang, none, scrO, regO, none, none, []⟩ p3 hp3 hcv rfl
    dsimp only at hfv
    obtain ⟨ep, st2, hrender, hfe, hst2, hepb⟩ := fold_ext_opt extsO
      ⟨some lang, none, scrO, regO, varO, none, []⟩ p4 hce rfl
    dsimp only at hfe hst2
    have hts := localeToString_eq ⟨some lang, none, scrO, regO, varO, extsO, []⟩ ep hrender
    dsimp only [Locale.getLanguage, Option.getD] at hts
    refine ⟨_, hts, ?_⟩
    have hassoc : [lang] ++ Option.elim scrO [] (fun s => [s]) ++
        Option.elim regO [] (fun r => [r]) ++
        Option.elim varO [] (fun vs => vs) ++ ep =
        lang :: (Option.elim scrO [] (fun s => [s]) ++
          (Option.elim regO [] (fun r => [r]) ++
           (Option.elim varO [] (fun vs => vs) ++ ep))) := by
      simp
    rw [hassoc]
    have hsep : ∀ pc ∈ lang :: (Option.elim scrO [] (fun s => [s]) ++
        (Option.elim regO [] (fun r => [r]) ++
         (Option.elim varO [] (fun vs => vs) ++ ep))),
        ∀ b ∈ pc, b < 128 ∧ isTagSep b = false := by
      intro pc hpc
      rcases List.mem_cons.mp hpc with rfl | hpc1
      · exact canonLang_bytes _ hlang
      rcases List.mem_append.mp hpc1 with hsp | hpc2
      · rcases scrO with _ | s
        · simp at hsp
        · simp [Option.elim] at hsp
          subst hsp
          exact canonScript_bytes _ (hcs _ rfl)
      rcases List.mem_append.mp hpc2 with hrp | hpc3
      · rcases regO with _ | r
        · simp at hrp
        · simp [Option.elim] at hrp
          subst hrp
          exact canonRegion_bytes _ (hcr _ rfl)
      rcases List.mem_append.mp hpc3 with hvp | hep2
      · rcases varO with _ | vs
        · simp at hvp
        · simp [Option.elim] at hvp
          exact canonVariant_bytes _ ((hcv vs rfl).2 pc hvp)
      · exact hepb pc hep2
    have hsplit : splitTags (joinDash (lang :: (Option.elim scrO [] (fun s => [s]) ++
        (Option.elim regO [] (fun r => [r]) ++
         (Option.elim varO [] (fun vs => vs) ++ ep))))) =
        lang :: (Option.elim scrO [] (fun s => [s]) ++
          (Option.elim regO [] (fun r => [r]) ++
           (Option.elim varO [] (fun vs => vs) ++ ep))) :=
      splitTags_joinDash _ (by simp) (fun p hp b hb => (hsep p hp b hb).2)
    unfold parseLanguageTag
    rw [if_neg (by
      intro hcontra
      simp only [List.any_eq_true, decide_eq_true_eq] at hcontra
      obtain ⟨b, hbm, hb128⟩ := hcontra
      rcases joinDash_bytes _ b hbm with rfl | ⟨pc2, hpc2, hbpc⟩
      · omega
      · have := (hsep pc2 hpc2 b hbpc).1
        omega)]
    rw [if_neg (joinDash_ne_nil lang _ hlangne)]
    rw [hsplit]
    rw [List.foldlM_cons, step_lang lang hlang hund2]
    simp only [exbind_ok]
    rw [List.foldlM_append, hfs]
    simp only [exbind_ok]
    rw [List.foldlM_append, hfr]
    simp only [exbind_ok]
    rw [List.foldlM_append, hfv]
    simp only [exbind_ok]
    rw [hfe]
    simp only [exbind_ok]
    rw [hst2]

/-- C2 witness: the amended round trip applied to the parse of
"en-Latn-US-boont-u-ca-buddhist-hc-h12". -/
theorem c2_round_trip_witness :
    ∃ s, localeToString ⟨some (strBytes "en"), none, some (strBytes "Latn"),
        some (strBytes "US"), some [strBytes "boont"],
        some [(strBytes "unicode", [(strBytes "calendar", strBytes "buddhist"),
                                    (strBytes "hour-cycle", strBytes "h12")])], []⟩ = some s ∧
      parseLanguageTag s = .ok ⟨some (strBytes "en"), none, some (strBytes "Latn"),
        some (strBytes "US"), some [strBytes "boont"],
        some [(strBytes "unicode", [(strBytes "calendar", strBytes "buddhist"),
                                    (strBytes "hour-cycle", strBytes "h12")])], []⟩ :=
  c2_round_trip (strBytes "en-Latn-US-boont-u-ca-buddhist-hc-h12") _ rfl rfl rfl
    (by decide) (Or.inl (by decide))

end FL
